import Mathlib

/-!
# libepoxy (emscripten port): extension and version introspection, bootstrap tables,
rewriting trampolines

A shallow embedding of `src/dispatch_common.c`, `src/dispatch_common.h` and
`src/dispatch_emscripten.c`.

Conventions of the embedding
* A C string is the list of its characters before the terminating NUL; a
  `const char *` argument is an `Option CStr`, `none` being the null pointer.
  Reading index `k` of a string `s` is `s[k]?`: `some c` inside the string
  and `none` for the terminator at `k = s.length`.
* A pointer into a string is its offset from the start of the string.
* A call either returns a value, runs `abort()`, has undefined behaviour (it
  dereferences a null pointer or reads outside a string), or has not returned
  within the given number of loop iterations (`fuel`).
* `int` has 32 bits; the conversion of a `size_t` to `int` keeps the low 32
  bits, as the compilers of the port do.
-/

namespace Epoxy

/-- The characters of a C string, terminator excluded. -/
abbrev CStr := List Char

/-- What a call of a C function does. -/
inductive Outcome (α : Type) where
  /-- The call returns this value. -/
  | returns (a : α)
  /-- The call ends the process through `abort()`. -/
  | aborts
  /-- The call dereferences a null pointer or reads outside a string. -/
  | undefined
  /-- The loop of the call is still running when the fuel is used up. -/
  | outOfFuel
  deriving DecidableEq, Repr

/-- The address of the function whose linker symbol is `symbol`. -/
structure FnAddr where
  symbol : CStr
  deriving DecidableEq, Repr

/-! ## `string.h` -/

/-- The C library `strstr(hay, needle)`: the offset in `hay` of the first
occurrence of `needle`, `none` for a null result. An empty `needle` is found at
offset 0. -/
def strstr (hay needle : CStr) : Option Nat :=
  if needle.isPrefixOf hay then some 0
  else
    match hay with
    | [] => none
    | _ :: rest => (strstr rest needle).map (· + 1)

/-! ## `dispatch_common.c` -/

/-- `epoxy_is_desktop_gl()`, lines 172-176. -/
def epoxy_is_desktop_gl : Bool := false

/-- `epoxy_gl_version()`, lines 193-197. -/
def epoxy_gl_version : Int := 20

/-- `epoxy_glsl_version()`, lines 214-218. -/
def epoxy_glsl_version : Int := 20

/-- The value of `len` after `len = strlen(ext)`, lines 241 and 246: the length
converted to the 32-bit `int`, negative for lengths from 2^31 to 2^32 - 1. -/
def strlen_as_int (ext : CStr) : Int :=
  ((ext.length : Int) + 2147483648) % 4294967296 - 2147483648

/-- The `while (true)` loop of `epoxy_extension_in_string`, lines 252-260, with
`ptr` at offset `off` of `extension_list`. The read of `ptr[len]` is undefined
when `ptr + len` lies before the string or past its terminator. -/
def extension_search (extension_list ext : CStr) : Nat → Nat → Outcome Bool
  | 0, _ => .outOfFuel
  | fuel + 1, off =>
    match strstr (extension_list.drop off) ext with
    | none => .returns false
    | some k =>
      let ptr : Int := (off : Int) + (k : Int)
      let len : Int := strlen_as_int ext
      if ptr + len < 0 ∨ (extension_list.length : Int) < ptr + len then .undefined
      else if extension_list[(ptr + len).toNat]? = some ' '
          ∨ extension_list[(ptr + len).toNat]? = none then
        .returns true
      else
        extension_search extension_list ext fuel (ptr + len).toNat

/-- The offsets the loop of `epoxy_extension_in_string` touches, in order: each
offset `ptr` that `strstr` searches from and, after a match, the index
`ptr + len` that is read and that `ptr` advances to. -/
def extension_search_accesses (extension_list ext : CStr) : Nat → Nat → List Int
  | 0, _ => []
  | fuel + 1, off =>
    match strstr (extension_list.drop off) ext with
    | none => [(off : Int)]
    | some k =>
      let ptr : Int := (off : Int) + (k : Int)
      let len : Int := strlen_as_int ext
      if ptr + len < 0 ∨ (extension_list.length : Int) < ptr + len then
        [(off : Int), ptr + len]
      else if extension_list[(ptr + len).toNat]? = some ' '
          ∨ extension_list[(ptr + len).toNat]? = none then
        [(off : Int), ptr + len]
      else
        (off : Int) :: (ptr + len) :: extension_search_accesses extension_list ext fuel
          (ptr + len).toNat

/-- `epoxy_extension_in_string(extension_list, ext)`, lines 237-261. -/
def epoxy_extension_in_string (fuel : Nat) (extension_list ext : Option CStr) :
    Outcome Bool :=
  match ext with
  | none => .returns false
  | some e =>
    match extension_list with
    | none => .returns false
    | some l =>
      if l = [] then .returns false
      else extension_search l e fuel 0

/-- The answers of the current GL context to the three queries
`epoxy_internal_has_gl_extension` makes. -/
structure GLContext where
  /-- The result of `glGetString(GL_EXTENSIONS)`. -/
  glGetString_EXTENSIONS : Option CStr
  /-- The value `glGetIntegerv(GL_NUM_EXTENSIONS, &n)` stores. -/
  glGetIntegerv_NUM_EXTENSIONS : Int
  /-- The result of `glGetStringi(GL_EXTENSIONS, i)`. -/
  glGetStringi_EXTENSIONS : Nat → Option CStr

/-- The `for` loop of `epoxy_internal_has_gl_extension`, lines 279-287, with
`remaining` iterations to go from index `i`. -/
def indexed_extension_loop (ctx : GLContext) (ext : Option CStr) : Nat → Nat → Outcome Bool
  | 0, _ => .returns false
  | remaining + 1, i =>
    match ctx.glGetStringi_EXTENSIONS i with
    | none => .returns false
    | some gl_ext =>
      match ext with
      | none => .undefined
      | some e =>
        if e = gl_ext then .returns true
        else indexed_extension_loop ctx ext remaining (i + 1)

/-- The branch of `epoxy_internal_has_gl_extension` for `epoxy_gl_version() < 30`,
lines 267-270. -/
def has_gl_extension_from_string (fuel : Nat) (ctx : GLContext) (ext : Option CStr)
    (invalid_op_mode : Bool) : Outcome Bool :=
  match ctx.glGetString_EXTENSIONS with
  | none => .returns invalid_op_mode
  | some exts => epoxy_extension_in_string fuel (some exts) ext

/-- The `else` branch of `epoxy_internal_has_gl_extension`, lines 272-287. -/
def has_gl_extension_from_index (ctx : GLContext) (ext : Option CStr)
    (invalid_op_mode : Bool) : Outcome Bool :=
  let num_extensions := ctx.glGetIntegerv_NUM_EXTENSIONS
  if num_extensions = 0 then .returns invalid_op_mode
  else indexed_extension_loop ctx ext num_extensions.toNat 0

/-- `epoxy_internal_has_gl_extension(ext, invalid_op_mode)`, lines 263-289. -/
def epoxy_internal_has_gl_extension (fuel : Nat) (ctx : GLContext) (ext : Option CStr)
    (invalid_op_mode : Bool) : Outcome Bool :=
  if epoxy_gl_version < 30 then
    has_gl_extension_from_string fuel ctx ext invalid_op_mode
  else
    has_gl_extension_from_index ctx ext invalid_op_mode

/-- `epoxy_has_gl_extension(ext)`, lines 301-305. -/
def epoxy_has_gl_extension (fuel : Nat) (ctx : GLContext) (ext : Option CStr) :
    Outcome Bool :=
  epoxy_internal_has_gl_extension fuel ctx ext false

/-! ## `dispatch_emscripten.c` -/

/-- The address of the function with this name, as `&glGetString` or the bare
`eglGetDisplay` of the source denote it. -/
def addressOf (symbol : String) : FnAddr := ⟨symbol.toList⟩

/-- `epoxy_em_bootstrap(str)`, lines 15-21; `strcmp` yields 0 exactly on equal
strings. -/
def epoxy_em_bootstrap (str : Option CStr) : Outcome FnAddr :=
  match str with
  | none => .undefined
  | some s =>
    if "glGetString".toList = s then .returns (addressOf "glGetString")
    else .returns (addressOf "glGetIntegerv")

/-- `epoxy_em_eglGetProcAddress(str)`, lines 24-53. -/
def epoxy_em_eglGetProcAddress (str : Option CStr) : Outcome FnAddr :=
  match str with
  | none => .undefined
  | some s =>
    if s = "eglGetDisplay".toList then .returns (addressOf "eglGetDisplay")
    else if s = "eglInitialize".toList then .returns (addressOf "eglInitialize")
    else if s = "eglTerminate".toList then .returns (addressOf "eglTerminate")
    else if s = "eglGetConfigs".toList then .returns (addressOf "eglGetConfigs")
    else if s = "eglChooseConfig".toList then .returns (addressOf "eglChooseConfig")
    else if s = "eglGetConfigAttrib".toList then .returns (addressOf "eglGetConfigAttrib")
    else if s = "eglCreateWindowSurface".toList then .returns (addressOf "eglCreateWindowSurface")
    else if s = "eglDestroySurface".toList then .returns (addressOf "eglDestroySurface")
    else if s = "eglCreateContext".toList then .returns (addressOf "eglCreateContext")
    else if s = "eglDestroyContext".toList then .returns (addressOf "eglDestroyContext")
    else if s = "eglQuerySurface".toList then .returns (addressOf "eglQuerySurface")
    else if s = "eglQueryContext".toList then .returns (addressOf "eglQueryContext")
    else if s = "eglGetError".toList then .returns (addressOf "eglGetError")
    else if s = "eglQueryString".toList then .returns (addressOf "eglQueryString")
    else if s = "eglBindAPI".toList then .returns (addressOf "eglBindAPI")
    else if s = "eglQueryAPI".toList then .returns (addressOf "eglQueryAPI")
    else if s = "eglWaitClient".toList then .returns (addressOf "eglWaitClient")
    else if s = "eglWaitNative".toList then .returns (addressOf "eglWaitNative")
    else if s = "eglWaitGL".toList then .returns (addressOf "eglWaitGL")
    else if s = "eglSwapInterval".toList then .returns (addressOf "eglSwapInterval")
    else if s = "eglMakeCurrent".toList then .returns (addressOf "eglMakeCurrent")
    else if s = "eglGetCurrentContext".toList then .returns (addressOf "eglGetCurrentContext")
    else if s = "eglGetCurrentSurface".toList then .returns (addressOf "eglGetCurrentSurface")
    else if s = "eglGetCurrentDisplay".toList then .returns (addressOf "eglGetCurrentDisplay")
    else if s = "eglSwapBuffers".toList then .returns (addressOf "eglSwapBuffers")
    else if s = "eglReleaseThread".toList then .returns (addressOf "eglReleaseThread")
    else .aborts

/-! ## `dispatch_common.h`: the rewriting trampolines

`GEN_GLOBAL_REWRITE_PTR(name, args, passthrough)` and its `_RET` variant
generate, for the entry point `name`, the function `name##_global_rewrite_ptr`.
The function pointer variable `name` and the function `name##_resolver` come
from generated code; the resolver is a parameter of the embedding. -/

/-- The surroundings of one entry point `name` with arguments `Arg` and result
`Ret` (`Unit` for a `void` entry point). -/
structure EntryPoint (Arg Ret : Type) where
  /-- The address of `name##_global_rewrite_ptr`. -/
  rewrite_ptr : FnAddr
  /-- The outcome of the call of `name##_resolver()` that `k` calls of it came
  before. -/
  resolver : Nat → Outcome FnAddr
  /-- What the function at an address other than `rewrite_ptr` returns; it
  leaves the variable `name` alone. -/
  target : FnAddr → Arg → Ret

/-- The state the trampoline of one entry point works on. -/
structure DispatchState where
  /-- The function pointer variable `name`, the slot. -/
  slot : FnAddr
  /-- The number of calls of `name##_resolver()` made so far. -/
  resolver_calls : Nat
  deriving DecidableEq, Repr

/-- The `if` statement of the trampoline, lines 40-42 and 50-52: a slot that
holds the trampoline is overwritten with the result of the resolver. -/
def rewrite_slot {Arg Ret : Type} (E : EntryPoint Arg Ret) (st : DispatchState) :
    Outcome DispatchState :=
  if st.slot = E.rewrite_ptr then
    match E.resolver st.resolver_calls with
    | .returns p => .returns ⟨p, st.resolver_calls + 1⟩
    | .aborts => .aborts
    | .undefined => .undefined
    | .outOfFuel => .outOfFuel
  else .returns st

/-- `name##_global_rewrite_ptr args` as `GEN_GLOBAL_REWRITE_PTR_RET` generates
it, lines 46-54. The last statement calls through the slot as it is after the
`if`: when the slot holds the trampoline itself this is a nested call of the
trampoline, which `fuel` bounds. -/
def global_rewrite_ptr_ret {Arg Ret : Type} (E : EntryPoint Arg Ret) :
    Nat → DispatchState → Arg → Outcome (Ret × DispatchState)
  | 0, _, _ => .outOfFuel
  | fuel + 1, st, a =>
    match rewrite_slot E st with
    | .returns st1 =>
      if st1.slot = E.rewrite_ptr then global_rewrite_ptr_ret E fuel st1 a
      else .returns (E.target st1.slot a, st1)
    | .aborts => .aborts
    | .undefined => .undefined
    | .outOfFuel => .outOfFuel

/-- `name##_global_rewrite_ptr args` as `GEN_GLOBAL_REWRITE_PTR` generates it
for a `void` entry point, lines 36-44. -/
def global_rewrite_ptr {Arg : Type} (E : EntryPoint Arg Unit) :
    Nat → DispatchState → Arg → Outcome (Unit × DispatchState) :=
  global_rewrite_ptr_ret E

/-- A call `name passthrough` through the slot, by the client or by the last
statement of the trampoline. -/
def call_through_slot {Arg Ret : Type} (E : EntryPoint Arg Ret) (fuel : Nat)
    (st : DispatchState) (a : Arg) : Outcome (Ret × DispatchState) :=
  if st.slot = E.rewrite_ptr then global_rewrite_ptr_ret E fuel st a
  else .returns (E.target st.slot a, st)

/-- One call of the entry point that returns, through the slot or to the
trampoline directly, takes the state `st` to `st'`. -/
inductive CallStep {Arg Ret : Type} (E : EntryPoint Arg Ret) :
    DispatchState → DispatchState → Prop where
  | through_slot (fuel : Nat) (a : Arg) (r : Ret) (st st' : DispatchState)
      (h : call_through_slot E fuel st a = .returns (r, st')) : CallStep E st st'
  | through_trampoline (fuel : Nat) (a : Arg) (r : Ret) (st st' : DispatchState)
      (h : global_rewrite_ptr_ret E fuel st a = .returns (r, st')) : CallStep E st st'

/-! ### Several threads in the trampoline

Each thread runs one invocation of the entry point; a step of the system is
one thread doing its next compare, resolve, store or forward, each of which
reads or writes the slot as a whole. -/

/-- Where a thread stands in its invocation of the entry point. -/
inductive ThreadPc where
  /-- About to call `name passthrough` through the slot. -/
  | call
  /-- In the trampoline, about to compare the slot with the trampoline, lines
  40 and 50. -/
  | compare
  /-- About to call `name##_resolver()`, lines 41 and 51. -/
  | resolve
  /-- About to store the result `p` of the resolver in the slot, lines 41 and
  51. -/
  | store (p : FnAddr)
  /-- About to call through the slot at the end of the trampoline, lines 43
  and 53. -/
  | forward
  /-- The call reached a function other than the trampoline and returned. -/
  | finished
  /-- The resolver did not return: the process has ended. -/
  | failed
  deriving DecidableEq, Repr

/-- The slot, the count of resolver calls and the threads. -/
structure RaceState where
  slot : FnAddr
  resolver_calls : Nat
  threads : List ThreadPc
  deriving DecidableEq, Repr

/-- The next step of a thread at `pc`: the slot, the count of resolver calls
and the position of the thread after it. A call through a slot that holds the
trampoline enters the trampoline. -/
def thread_step {Arg Ret : Type} (E : EntryPoint Arg Ret) (slot : FnAddr) (calls : Nat) :
    ThreadPc → FnAddr × Nat × ThreadPc
  | .call => (slot, calls, if slot = E.rewrite_ptr then .compare else .finished)
  | .compare => (slot, calls, if slot = E.rewrite_ptr then .resolve else .forward)
  | .resolve =>
    match E.resolver calls with
    | .returns p => (slot, calls + 1, .store p)
    | _ => (slot, calls + 1, .failed)
  | .store p => (p, calls, .forward)
  | .forward => (slot, calls, if slot = E.rewrite_ptr then .compare else .finished)
  | .finished => (slot, calls, .finished)
  | .failed => (slot, calls, .failed)

/-- Thread `t` takes its next step; nothing moves once the process has ended
or when there is no thread `t`. -/
def race_step {Arg Ret : Type} (E : EntryPoint Arg Ret) (s : RaceState) (t : Nat) : RaceState :=
  if ThreadPc.failed ∈ s.threads then s
  else
    match s.threads[t]? with
    | none => s
    | some pc =>
      ⟨(thread_step E s.slot s.resolver_calls pc).1,
       (thread_step E s.slot s.resolver_calls pc).2.1,
       s.threads.set t (thread_step E s.slot s.resolver_calls pc).2.2⟩

/-- The threads take steps in the order of `schedule`. -/
def race_run {Arg Ret : Type} (E : EntryPoint Arg Ret) (schedule : List Nat) (s : RaceState) :
    RaceState :=
  schedule.foldl (race_step E) s

/-- The slot holds the trampoline, the resolver has not been called, and `n`
threads are about to call the entry point. -/
def race_init {Arg Ret : Type} (E : EntryPoint Arg Ret) (n : Nat) : RaceState :=
  ⟨E.rewrite_ptr, 0, List.replicate n .call⟩

/-- An entry point for the examples: `glFoo` takes a number and its resolved
function, at the address the resolver always returns, adds one to it. -/
def glFoo : EntryPoint Nat Nat where
  rewrite_ptr := addressOf "glFoo_global_rewrite_ptr"
  resolver := fun _ => .returns (addressOf "glFoo_resolved")
  target := fun _ a => a + 1

/-! ## Vocabulary of the claims -/

/-- The 26 EGL function names `epoxy_em_eglGetProcAddress` is specified to
know, `eglGetDisplay` to `eglReleaseThread`. -/
def egl_bootstrap_names : List CStr :=
  ["eglGetDisplay".toList, "eglInitialize".toList, "eglTerminate".toList,
   "eglGetConfigs".toList, "eglChooseConfig".toList, "eglGetConfigAttrib".toList,
   "eglCreateWindowSurface".toList, "eglDestroySurface".toList, "eglCreateContext".toList,
   "eglDestroyContext".toList, "eglQuerySurface".toList, "eglQueryContext".toList,
   "eglGetError".toList, "eglQueryString".toList, "eglBindAPI".toList,
   "eglQueryAPI".toList, "eglWaitClient".toList, "eglWaitNative".toList,
   "eglWaitGL".toList, "eglSwapInterval".toList, "eglMakeCurrent".toList,
   "eglGetCurrentContext".toList, "eglGetCurrentSurface".toList, "eglGetCurrentDisplay".toList,
   "eglSwapBuffers".toList, "eglReleaseThread".toList]

/-- A string of 2^31 letters `a`, the shortest whose length the `int len` of
`epoxy_extension_in_string` cannot hold. -/
def long_name : CStr := List.replicate 2147483648 'a'

/-- The address `p` is the result of one of the first `calls` calls of the
resolver. -/
def ResolverReturned {Arg Ret : Type} (E : EntryPoint Arg Ret) (calls : Nat) (p : FnAddr) :
    Prop :=
  ∃ k, k < calls ∧ E.resolver k = .returns p

/-- What holds of a thread at `pc` when the slot is `slot`: the process has
not ended, a thread past its compare or store sees a resolved slot, and an
address about to be stored came from the resolver. -/
def ThreadOk {Arg Ret : Type} (E : EntryPoint Arg Ret) (slot : FnAddr) (calls : Nat)
    (pc : ThreadPc) : Prop :=
  pc ≠ .failed ∧ ((pc = .forward ∨ pc = .finished) → slot ≠ E.rewrite_ptr)
    ∧ ∀ p, pc = .store p → ResolverReturned E calls p

/-- The invariant of the race: the slot holds the trampoline or an address the
resolver returned, and every thread is in order. -/
def RaceInv {Arg Ret : Type} (E : EntryPoint Arg Ret) (s : RaceState) : Prop :=
  (s.slot = E.rewrite_ptr ∨ ResolverReturned E s.resolver_calls s.slot)
    ∧ ∀ pc ∈ s.threads, ThreadOk E s.slot s.resolver_calls pc

/-- The number of steps a thread at `pc` has left at most. -/
def stepsLeft : ThreadPc → Nat
  | .call => 5
  | .compare => 4
  | .resolve => 3
  | .store _ => 2
  | .forward => 1
  | .finished => 0
  | .failed => 0

/-- The number of steps thread `t` has left at most. -/
def threadStepsLeft (s : RaceState) (t : Nat) : Nat :=
  match s.threads[t]? with
  | some pc => stepsLeft pc
  | none => 0

/-- The names joined by single spaces, as an old-style extension string lists
them. -/
def joinWithSpaces : List CStr → CStr
  | [] => []
  | [name] => name
  | name :: rest => name ++ ' ' :: joinWithSpaces rest

/-- The context reports exactly `names` through the count and the indexed
string queries. -/
def ReportsIndexed (ctx : GLContext) (names : List CStr) : Prop :=
  ctx.glGetIntegerv_NUM_EXTENSIONS = names.length
    ∧ ∀ i, i < names.length → ctx.glGetStringi_EXTENSIONS i = names[i]?

/-- The single extension string of the context is `names` joined by single
spaces. -/
def ReportsString (ctx : GLContext) (names : List CStr) : Prop :=
  ctx.glGetString_EXTENSIONS = some (joinWithSpaces names)

/-- The string `ext` occurs in `list` starting at offset `p`. -/
def OccursAt (list ext : CStr) (p : Nat) : Prop :=
  p + ext.length ≤ list.length ∧ ext <+: list.drop p

/-- The occurrence of `ext` at offset `p` of `list` is immediately followed by
a space or by the end of the string. -/
def FollowedByBoundary (list ext : CStr) (p : Nat) : Prop :=
  list[p + ext.length]? = some ' ' ∨ list[p + ext.length]? = none

/-- Offset `p` of `list` is the start of the string or comes right after a
space. -/
def PrecededByBoundary (list : CStr) (p : Nat) : Prop :=
  p = 0 ∨ list[p - 1]? = some ' '

/-- The string `ext` is a space-delimited token of `list` at offset `p`. -/
def TokenAt (list ext : CStr) (p : Nat) : Prop :=
  OccursAt list ext p ∧ PrecededByBoundary list p ∧ FollowedByBoundary list ext p

instance (list ext : CStr) (p : Nat) : Decidable (OccursAt list ext p) := by
  unfold OccursAt; infer_instance

instance (list ext : CStr) (p : Nat) : Decidable (FollowedByBoundary list ext p) := by
  unfold FollowedByBoundary; infer_instance

instance (list : CStr) (p : Nat) : Decidable (PrecededByBoundary list p) := by
  unfold PrecededByBoundary; infer_instance

instance (list ext : CStr) (p : Nat) : Decidable (TokenAt list ext p) := by
  unfold TokenAt; infer_instance

/-! ## `strstr` finds the first occurrence -/

theorem strstr_some {hay needle : CStr} {k : Nat} (h : strstr hay needle = some k) :
    needle <+: hay.drop k ∧ ∀ j, j < k → ¬ needle <+: hay.drop j := by
  induction hay generalizing k with
  | nil =>
    unfold strstr at h
    split at h
    · rename_i hp
      simp at h
      subst h
      exact ⟨by simpa using hp, by intro j hj; omega⟩
    · simp at h
  | cons c rest ih =>
    unfold strstr at h
    split at h
    · rename_i hp
      simp at h
      subst h
      exact ⟨by simpa using hp, by intro j hj; omega⟩
    · rename_i hp
      simp only [Option.map_eq_some'] at h
      obtain ⟨k', hk', rfl⟩ := h
      obtain ⟨h1, h2⟩ := ih hk'
      refine ⟨by simpa using h1, ?_⟩
      intro j hj
      cases j with
      | zero => simpa using hp
      | succ j => simpa using h2 j (by omega)

theorem strstr_none {hay needle : CStr} (h : strstr hay needle = none) (j : Nat) :
    ¬ needle <+: hay.drop j := by
  induction hay generalizing j with
  | nil =>
    unfold strstr at h
    split at h
    · simp at h
    · rename_i hp
      simpa using hp
  | cons c rest ih =>
    unfold strstr at h
    split at h
    · simp at h
    · rename_i hp
      simp only [Option.map_eq_none'] at h
      cases j with
      | zero => simpa using hp
      | succ j => simpa using ih h j
theorem strstr_bound {hay needle : CStr} {k : Nat} (h : strstr hay needle = some k) :
    k + needle.length ≤ hay.length := by
  induction hay generalizing k with
  | nil =>
    unfold strstr at h
    split at h
    · rename_i hp
      simp at h
      subst h
      have := (List.isPrefixOf_iff_prefix.mp hp).length_le
      simpa using this
    · simp at h
  | cons c rest ih =>
    unfold strstr at h
    split at h
    · rename_i hp
      simp at h
      subst h
      have := (List.isPrefixOf_iff_prefix.mp hp).length_le
      simpa using this
    · simp only [Option.map_eq_some'] at h
      obtain ⟨k', hk', rfl⟩ := h
      have := ih hk'
      simp only [List.length_cons]
      omega

/-! ## The search loop -/

theorem strlen_as_int_of_lt {ext : CStr} (hlen : ext.length < 2147483648) :
    strlen_as_int ext = (ext.length : Int) := by
  unfold strlen_as_int
  omega

/-- One round of the loop when `len` holds the length of `ext` exactly and the
search position lies inside the string. -/
theorem extension_search_succ (list ext : CStr) (fuel off : Nat)
    (hlen : ext.length < 2147483648) (hoff : off ≤ list.length) :
    extension_search list ext (fuel + 1) off =
      match strstr (list.drop off) ext with
      | none => .returns false
      | some k =>
        if list[off + k + ext.length]? = some ' ' ∨ list[off + k + ext.length]? = none then
          .returns true
        else extension_search list ext fuel (off + k + ext.length) := by
  rw [extension_search]
  cases hs : strstr (list.drop off) ext with
  | none => rfl
  | some k =>
    have hb := strstr_bound hs
    simp only [List.length_drop] at hb
    have e : (off : Int) + (k : Int) + strlen_as_int ext
        = ((off + k + ext.length : Nat) : Int) := by
      rw [strlen_as_int_of_lt hlen]
      push_cast
      rfl
    simp only [e, Int.toNat_ofNat]
    rw [if_neg (by omega)]

/-- A `true` result comes from an occurrence that is followed by a space or
the end of the string. -/
theorem extension_search_true {list ext : CStr} {fuel off : Nat}
    (hlen : ext.length < 2147483648) (hoff : off ≤ list.length)
    (h : extension_search list ext fuel off = .returns true) :
    ∃ p, off ≤ p ∧ OccursAt list ext p ∧ FollowedByBoundary list ext p := by
  induction fuel generalizing off with
  | zero => simp [extension_search] at h
  | succ n ih =>
    rw [extension_search_succ list ext n off hlen hoff] at h
    split at h
    · simp at h
    · rename_i k hk
      have hb := strstr_bound hk
      have hp := (strstr_some hk).1
      simp only [List.length_drop] at hb
      rw [List.drop_drop] at hp
      have hocc : OccursAt list ext (off + k) := ⟨by omega, by simpa [Nat.add_comm] using hp⟩
      split at h
      · rename_i hc
        exact ⟨off + k, by omega, hocc, hc⟩
      · obtain ⟨p, hp1, hp2, hp3⟩ := ih (by omega) h
        exact ⟨p, by omega, hp2, hp3⟩

/-- With a non-empty `ext` the loop returns within `list.length + 1` rounds. -/
theorem extension_search_returns {list ext : CStr} {fuel off : Nat}
    (hlen : ext.length < 2147483648) (hext : ext ≠ []) (hoff : off ≤ list.length) (hfuel : list.length < fuel + off) :
    ∃ b, extension_search list ext fuel off = .returns b := by
  induction fuel generalizing off with
  | zero => omega
  | succ n ih =>
    rw [extension_search_succ list ext n off hlen hoff]
    split
    · exact ⟨false, rfl⟩
    · rename_i k hk
      have hb := strstr_bound hk
      simp only [List.length_drop] at hb
      split
      · exact ⟨true, rfl⟩
      · have : 0 < ext.length := List.length_pos.mpr hext
        exact ih (by omega) (by omega)
theorem occursAt_getElem? {list ext : CStr} {p i : Nat} (h : OccursAt list ext p)
    (hi : i < ext.length) : list[p + i]? = ext[i]? := by
  obtain ⟨t, ht⟩ := h.2
  rw [← List.getElem?_drop, ← ht, List.getElem?_append_left hi]

/-- A space-delimited token at or after the search position is found, when
`ext` is non-empty and holds no space. -/
theorem extension_search_token {list ext : CStr} {fuel off q : Nat}
    (hlen' : ext.length < 2147483648) (hext : ext ≠ []) (hsp : ' ' ∉ ext) (htok : TokenAt list ext q)
    (hoff : off ≤ q) (hfuel : list.length < fuel + off) :
    extension_search list ext fuel off = .returns true := by
  have hlen : 0 < ext.length := List.length_pos.mpr hext
  obtain ⟨hocc, hpre, hfol⟩ := htok
  have hq := hocc.1
  induction fuel generalizing off with
  | zero => omega
  | succ n ih =>
    rw [extension_search_succ list ext n off hlen' (by omega)]
    split
    · rename_i hnone
      have := strstr_none hnone (q - off)
      rw [List.drop_drop] at this
      have e : off + (q - off) = q := by omega
      rw [e] at this
      exact absurd hocc.2 this
    · rename_i k hk
      obtain ⟨hp, hmin⟩ := strstr_some hk
      have hb := strstr_bound hk
      simp only [List.length_drop] at hb
      rw [List.drop_drop] at hp
      have hk_le : off + k ≤ q := by
        by_contra hlt
        have := hmin (q - off) (by omega)
        rw [List.drop_drop] at this
        have e : off + (q - off) = q := by omega
        rw [e] at this
        exact this hocc.2
      split
      · rfl
      · rename_i hc
        have hne : off + k ≠ q := by
          rintro rfl
          exact hc hfol
        have hjump : off + k + ext.length ≤ q := by
          by_contra hlt
          have hq0 : q ≠ 0 := by omega
          have hspace : list[q - 1]? = some ' ' := by
            rcases hpre with h0 | h1
            · exact absurd h0 hq0
            · exact h1
          have hi : q - 1 - (off + k) < ext.length := by omega
          have hocc' : OccursAt list ext (off + k) := ⟨by omega, hp⟩
          have hget := occursAt_getElem? hocc' hi
          have e : off + k + (q - 1 - (off + k)) = q - 1 := by omega
          rw [e, hspace] at hget
          have hmem : ' ' ∈ ext := by
            rw [List.mem_iff_getElem?]
            exact ⟨_, hget.symm⟩
          exact hsp hmem
        exact ih hjump (by omega)

/-- When no occurrence of a non-empty `ext` is followed by a space or the end
of the string, the search returns `false`. -/
theorem extension_search_false {list ext : CStr} {fuel : Nat}
    (hlen : ext.length < 2147483648) (hext : ext ≠ [])
    (hocc : ∀ p, OccursAt list ext p → ¬ FollowedByBoundary list ext p)
    (hfuel : list.length < fuel) :
    extension_search list ext fuel 0 = .returns false := by
  have hret : ∃ b, extension_search list ext fuel 0 = .returns b :=
    extension_search_returns hlen hext (Nat.zero_le _) (by omega)
  obtain ⟨b, hb⟩ := hret
  cases b with
  | false => exact hb
  | true =>
    obtain ⟨p, _, h1, h2⟩ := extension_search_true hlen (Nat.zero_le _) hb
    exact absurd h2 (hocc p h1)
/-! ## An `ext` of 2^31 bytes or more -/

theorem strstr_of_isPrefix {hay needle : CStr} (h : needle <+: hay) :
    strstr hay needle = some 0 := by
  unfold strstr
  rw [if_pos (List.isPrefixOf_iff_prefix.mpr h)]

/-- When `ext` starts the list and its length is from 2^31 to 2^32 - 1, `len`
is negative and the first round reads before the string. -/
theorem extension_search_wraps (list ext : CStr) (fuel : Nat) (hp : ext <+: list)
    (h1 : 2147483648 ≤ ext.length) (h2 : ext.length < 4294967296) :
    extension_search list ext (fuel + 1) 0 = .undefined := by
  have hneg : strlen_as_int ext < 0 := by
    unfold strlen_as_int
    omega
  rw [extension_search, List.drop_zero, strstr_of_isPrefix hp]
  simp only
  rw [if_pos (Or.inl (by omega))]

theorem in_string_wraps (list ext : CStr) (fuel : Nat) (hp : ext <+: list)
    (h1 : 2147483648 ≤ ext.length) (h2 : ext.length < 4294967296) :
    epoxy_extension_in_string (fuel + 1) (some list) (some ext) = .undefined := by
  have hne : list ≠ [] := by
    intro h
    have := hp.length_le
    rw [h, List.length_nil] at this
    omega
  simp only [epoxy_extension_in_string, hne, if_false]
  exact extension_search_wraps list ext fuel hp h1 h2

theorem in_string_wraps_ne (list ext : CStr) (b : Bool) (fuel : Nat) (hp : ext <+: list)
    (h1 : 2147483648 ≤ ext.length) (h2 : ext.length < 4294967296) :
    epoxy_extension_in_string fuel (some list) (some ext) ≠ .returns b := by
  have hne : list ≠ [] := by
    intro h
    have := hp.length_le
    rw [h, List.length_nil] at this
    omega
  cases fuel with
  | zero =>
    simp only [epoxy_extension_in_string, hne, if_false, extension_search]
    intro h
    cases h
  | succ n =>
    rw [in_string_wraps list ext n hp h1 h2]
    intro h
    cases h

theorem extension_search_accesses_wraps (list ext : CStr) (fuel : Nat) (hp : ext <+: list)
    (h1 : 2147483648 ≤ ext.length) (h2 : ext.length < 4294967296) :
    extension_search_accesses list ext (fuel + 1) 0
      = [0, (ext.length : Int) - 4294967296] := by
  have hval : strlen_as_int ext = (ext.length : Int) - 4294967296 := by
    unfold strlen_as_int
    omega
  rw [extension_search_accesses, List.drop_zero, strstr_of_isPrefix hp]
  simp only [hval]
  rw [if_pos (Or.inl (by omega))]
  simp

theorem long_name_length : long_name.length = 2147483648 :=
  List.length_replicate 2147483648 'a'

theorem tokenAt_self (l : CStr) : TokenAt l l 0 := by
  refine ⟨⟨by omega, List.prefix_refl l⟩, Or.inl rfl, Or.inr ?_⟩
  rw [List.getElem?_eq_none_iff]
  omega

theorem replicate_ne_nil (n : Nat) (c : Char) (hn : 0 < n) : List.replicate n c ≠ [] := by
  intro h
  have := congrArg List.length h
  rw [List.length_replicate, List.length_nil] at this
  omega

/-- The only occurrence of `n` letters `a` in `n` letters `a` and a `b` is at
offset 0, where the `b` follows it. -/
theorem followed_by_b (n p : Nat) (hn : 0 < n)
    (h : OccursAt (List.replicate n 'a' ++ ['b']) (List.replicate n 'a') p) :
    (List.replicate n 'a' ++ ['b'])[p + (List.replicate n 'a').length]? = some 'b' := by
  have hb := h.1
  simp only [List.length_append, List.length_replicate, List.length_singleton] at hb
  have hlast : (List.replicate n 'a' ++ ['b'])[n]? = some 'b' := by
    rw [List.getElem?_append_right (by rw [List.length_replicate]), List.length_replicate,
      Nat.sub_self]
    rfl
  rw [List.length_replicate]
  have hp : p = 0 ∨ p = 1 := by omega
  rcases hp with rfl | rfl
  · rw [Nat.zero_add]
    exact hlast
  · have hi : n - 1 < (List.replicate n 'a').length := by
      rw [List.length_replicate]
      omega
    have hget := occursAt_getElem? h hi
    have e : 1 + (n - 1) = n := by omega
    rw [e, hlast, List.getElem?_replicate_of_lt (by omega)] at hget
    exact absurd (Option.some.inj hget) (by decide)

/-! ## Names joined by single spaces -/

theorem getElem?_after_space (pre rest : CStr) (i : Nat) :
    (pre ++ ' ' :: rest)[pre.length + 1 + i]? = rest[i]? := by
  rw [List.getElem?_append_right (by omega)]
  have e : pre.length + 1 + i - pre.length = i + 1 := by omega
  rw [e, List.getElem?_cons_succ]

theorem getElem?_at_space (pre rest : CStr) :
    (pre ++ ' ' :: rest)[pre.length]? = some ' ' := by
  rw [List.getElem?_append_right (Nat.le_refl _)]
  simp

theorem drop_after_space (pre rest : CStr) (i : Nat) :
    (pre ++ ' ' :: rest).drop (pre.length + 1 + i) = rest.drop i := by
  rw [Nat.add_assoc, List.drop_append, Nat.add_comm 1 i, List.drop_succ_cons]

/-- A token of `rest` is a token of `pre ++ " " ++ rest`, further right. -/
theorem tokenAt_after_space (pre rest name : CStr) (p : Nat) (h : TokenAt rest name p) :
    TokenAt (pre ++ ' ' :: rest) name (pre.length + 1 + p) := by
  obtain ⟨⟨hb, hp⟩, hpre, hfol⟩ := h
  refine ⟨⟨?_, ?_⟩, ?_, ?_⟩
  · simp only [List.length_append, List.length_cons]
    omega
  · rw [drop_after_space]
    exact hp
  · right
    rcases hpre with h0 | h1
    · subst h0
      exact getElem?_at_space pre rest
    · by_cases hp0 : p = 0
      · subst hp0
        exact getElem?_at_space pre rest
      · have e : pre.length + 1 + p - 1 = pre.length + 1 + (p - 1) := by omega
        rw [e, getElem?_after_space]
        exact h1
  · unfold FollowedByBoundary at hfol ⊢
    have e : pre.length + 1 + p + name.length = pre.length + 1 + (p + name.length) := by omega
    rw [e, getElem?_after_space]
    exact hfol

/-- Every name of the list is a space-delimited token of the joined string. -/
theorem tokenAt_joinWithSpaces (names : List CStr) (name : CStr) (h : name ∈ names) :
    ∃ p, TokenAt (joinWithSpaces names) name p := by
  induction names with
  | nil => simp at h
  | cons n rest ih =>
    cases rest with
    | nil =>
      simp only [List.mem_singleton] at h
      subst h
      refine ⟨0, ⟨by simp [joinWithSpaces], by simp [joinWithSpaces]⟩, Or.inl rfl, Or.inr ?_⟩
      simp [joinWithSpaces]
    | cons m rest =>
      rw [joinWithSpaces]
      rcases List.mem_cons.mp h with h | h
      · subst h
        refine ⟨0, ⟨?_, ?_⟩, Or.inl rfl, Or.inl ?_⟩
        · simp only [List.length_append, List.length_cons]
          omega
        · simp
        · rw [Nat.zero_add]
          exact getElem?_at_space _ _
      · obtain ⟨p, hp⟩ := ih h
        exact ⟨_, tokenAt_after_space n _ name p hp⟩
      · intro h'
        cases h'

/-- An occurrence of a space-free `ext` in a space-free `name` that is
followed by a boundary ends where `name` ends. -/
theorem suffix_of_followed_in_name {name ext : CStr} {p : Nat} (hname : ' ' ∉ name)
    (hocc : OccursAt name ext p) (hfol : name[p + ext.length]? = some ' ' ∨ p + ext.length ≥ name.length) :
    ext <:+ name := by
  have hend : p + ext.length = name.length := by
    rcases hfol with h | h
    · exact absurd (List.mem_iff_getElem?.mpr ⟨_, h⟩) hname
    · have := hocc.1
      omega
  have hlen : ext.length = (name.drop p).length := by
    rw [List.length_drop]
    omega
  rw [hocc.2.eq_of_length hlen]
  exact List.drop_suffix p name


/-- In the joined string of space-free names, an occurrence of a non-empty,
space-free `ext` that is followed by a space or the end of the string ends
where one of the names ends. -/
theorem suffix_of_followed_in_join (names : List CStr) (ext : CStr)
    (hnames : ∀ n ∈ names, ' ' ∉ n) (hext : ext ≠ []) (hsp : ' ' ∉ ext) (p : Nat)
    (hocc : OccursAt (joinWithSpaces names) ext p)
    (hfol : FollowedByBoundary (joinWithSpaces names) ext p) :
    ∃ n ∈ names, ext <:+ n := by
  have hlen : 0 < ext.length := List.length_pos.mpr hext
  induction names generalizing p with
  | nil =>
    have := hocc.1
    simp only [joinWithSpaces, List.length_nil] at this
    omega
  | cons n rest ih =>
    have hn : ' ' ∉ n := hnames n (List.mem_cons_self _ _)
    cases rest with
    | nil =>
      simp only [joinWithSpaces] at hocc hfol
      refine ⟨n, List.mem_singleton.mpr rfl, suffix_of_followed_in_name hn hocc ?_⟩
      rcases hfol with h | h
      · exact Or.inl h
      · exact Or.inr (List.getElem?_eq_none_iff.mp h)
    | cons m rest =>
      have hjoin : joinWithSpaces (n :: m :: rest) = n ++ ' ' :: joinWithSpaces (m :: rest) := by
        rw [joinWithSpaces]
        intro h'
        cases h'
      rw [hjoin] at hocc hfol
      have hbound := hocc.1
      simp only [List.length_append, List.length_cons] at hbound
      by_cases h1 : p + ext.length ≤ n.length
      · -- the occurrence lies inside the first name
        have hoccn : OccursAt n ext p := by
          refine ⟨h1, ?_⟩
          have hp := hocc.2
          rw [List.drop_append_of_le_length (by omega)] at hp
          refine List.prefix_of_prefix_length_le hp (List.prefix_append _ _) ?_
          rw [List.length_drop]
          omega
        refine ⟨n, List.mem_cons_self _ _, suffix_of_followed_in_name hn hoccn ?_⟩
        by_cases h2 : p + ext.length < n.length
        · left
          rcases hfol with h | h
          · rwa [List.getElem?_append_left h2] at h
          · rw [List.getElem?_eq_none_iff] at h
            simp only [List.length_append, List.length_cons] at h
            omega
        · right
          omega
      · by_cases h2 : p ≤ n.length
        · -- the occurrence would cover the space after the first name
          have hi : n.length - p < ext.length := by omega
          have hget := occursAt_getElem? hocc hi
          have e : p + (n.length - p) = n.length := by omega
          rw [e, getElem?_at_space] at hget
          exact absurd (List.mem_iff_getElem?.mpr ⟨_, hget.symm⟩) hsp
        · -- the occurrence lies in the rest of the joined string
          have e : p = n.length + 1 + (p - n.length - 1) := by omega
          have hocc' : OccursAt (joinWithSpaces (m :: rest)) ext (p - n.length - 1) := by
            refine ⟨by omega, ?_⟩
            have hp := hocc.2
            rw [e, drop_after_space] at hp
            exact hp
          have hfol' : FollowedByBoundary (joinWithSpaces (m :: rest)) ext (p - n.length - 1) := by
            unfold FollowedByBoundary at hfol ⊢
            have e' : p + ext.length = n.length + 1 + (p - n.length - 1 + ext.length) := by omega
            rw [e', getElem?_after_space] at hfol
            exact hfol
          obtain ⟨n', hmem, hsuf⟩ :=
            ih (fun x hx => hnames x (List.mem_cons_of_mem _ hx)) _ hocc' hfol'
          exact ⟨n', List.mem_cons_of_mem _ hmem, hsuf⟩

/-! ## The indexed scan -/

/-- On a context that reports `names` by index, the scan from index `i` tells
whether `ext` is among the names from `i` on. -/
theorem indexed_extension_loop_mem (ctx : GLContext) (names : List CStr) (ext : CStr)
    (hidx : ∀ i, i < names.length → ctx.glGetStringi_EXTENSIONS i = names[i]?)
    (remaining i : Nat) (hrem : i + remaining = names.length) :
    indexed_extension_loop ctx (some ext) remaining i = .returns (decide (ext ∈ names.drop i)) := by
  induction remaining generalizing i with
  | zero =>
    have : names.drop i = [] := List.drop_eq_nil_of_le (by omega)
    simp [indexed_extension_loop, this]
  | succ r ih =>
    have hi : i < names.length := by omega
    have hmem : ext ∈ names.drop i ↔ ext = names[i] ∨ ext ∈ names.drop (i + 1) := by
      rw [List.drop_eq_getElem_cons hi, List.mem_cons]
    rw [indexed_extension_loop, hidx i hi, List.getElem?_eq_getElem hi]
    simp only
    by_cases heq : ext = names[i]
    · rw [if_pos heq, decide_eq_true (hmem.mpr (Or.inl heq))]
    · rw [if_neg heq, ih (i + 1) (by omega)]
      congr 1
      rw [decide_eq_decide, hmem]
      exact ⟨Or.inr, fun h => h.resolve_left heq⟩


/-- With the empty `ext`, a search position on a character other than a space
is never left: the loop is still running after any number of rounds. -/
theorem extension_search_empty_ext_loops (list : CStr) (off : Nat) (c : Char)
    (hc : list[off]? = some c) (hne : c ≠ ' ') (fuel : Nat) :
    extension_search list [] fuel off = .outOfFuel := by
  induction fuel with
  | zero => rfl
  | succ n ih =>
    have hstr : strstr (list.drop off) [] = some 0 := by
      unfold strstr
      simp
    have hoff : off ≤ list.length := by
      have := (List.getElem?_eq_some_iff.mp hc).1
      omega
    rw [extension_search_succ list [] n off (by simp) hoff, hstr]
    simp only [List.length_nil, Nat.add_zero, hc]
    rw [if_neg]
    · exact ih
    · rintro (h | h)
      · exact hne (Option.some.inj h)
      · exact absurd h (by simp)

/-! ## `epoxy_extension_in_string` on non-null arguments -/

theorem in_string_of_token {list ext : CStr} {p fuel : Nat}
    (hlen' : ext.length < 2147483648) (hext : ext ≠ []) (hsp : ' ' ∉ ext) (htok : TokenAt list ext p)
    (hfuel : list.length < fuel) :
    epoxy_extension_in_string fuel (some list) (some ext) = .returns true := by
  have hlen : 0 < ext.length := List.length_pos.mpr hext
  have hlist : list ≠ [] := by
    intro h
    have := htok.1.1
    rw [h, List.length_nil] at this
    omega
  simp only [epoxy_extension_in_string, hlist, if_false]
  exact extension_search_token hlen' hext hsp htok (Nat.zero_le _) (by omega)

theorem in_string_true {list ext : CStr} {fuel : Nat}
    (hlen : ext.length < 2147483648)
    (h : epoxy_extension_in_string fuel (some list) (some ext) = .returns true) :
    ∃ p, OccursAt list ext p ∧ FollowedByBoundary list ext p := by
  simp only [epoxy_extension_in_string] at h
  split at h
  · simp at h
  · obtain ⟨p, _, h1, h2⟩ := extension_search_true hlen (Nat.zero_le _) h
    exact ⟨p, h1, h2⟩

theorem in_string_returns {list ext : CStr} {fuel : Nat}
    (hlen : ext.length < 2147483648) (hext : ext ≠ []) (hfuel : list.length < fuel) :
    ∃ b, epoxy_extension_in_string fuel (some list) (some ext) = .returns b := by
  simp only [epoxy_extension_in_string]
  split
  · exact ⟨false, rfl⟩
  · exact extension_search_returns hlen hext (Nat.zero_le _) (by omega)

/-- On the joined string of space-free names, the search for a non-empty,
space-free `ext` that is a proper suffix of no name tells whether `ext` is one
of the names. -/
theorem in_string_joinWithSpaces (names : List CStr) (ext : CStr) (fuel : Nat)
    (hnames : ∀ n ∈ names, ' ' ∉ n) (hext : ext ≠ []) (hsp : ' ' ∉ ext)
    (hlen : ext.length < 2147483648)
    (hsuf : ∀ n ∈ names, ext <:+ n → ext = n)
    (hfuel : (joinWithSpaces names).length < fuel) :
    epoxy_extension_in_string fuel (some (joinWithSpaces names)) (some ext)
      = .returns (decide (ext ∈ names)) := by
  by_cases hmem : ext ∈ names
  · obtain ⟨p, hp⟩ := tokenAt_joinWithSpaces names ext hmem
    rw [decide_eq_true hmem]
    exact in_string_of_token hlen hext hsp hp hfuel
  · rw [decide_eq_false hmem]
    have hret : ∃ b, epoxy_extension_in_string fuel (some (joinWithSpaces names)) (some ext)
        = .returns b := in_string_returns hlen hext hfuel
    obtain ⟨b, hb⟩ := hret
    cases b with
    | false => exact hb
    | true =>
      obtain ⟨p, h1, h2⟩ := in_string_true hlen hb
      obtain ⟨n, hn, hs⟩ := suffix_of_followed_in_join names ext hnames hext hsp p h1 h2
      exact absurd (hsuf n hn hs ▸ hn) hmem

/-! ## The bootstrap tables -/

theorem epoxy_em_eglGetProcAddress_eq (name : CStr) :
    epoxy_em_eglGetProcAddress (some name) =
      if name ∈ egl_bootstrap_names then .returns ⟨name⟩ else .aborts := by
  by_cases h : name ∈ egl_bootstrap_names
  · rw [if_pos h]
    simp only [egl_bootstrap_names, List.mem_cons, List.mem_singleton, List.not_mem_nil,
      or_false] at h
    rcases h with h | h | h | h | h | h | h | h | h | h | h | h | h | h | h | h | h | h | h | h
      | h | h | h | h | h | h <;> subst h <;> rfl
  · rw [if_neg h]
    simp only [egl_bootstrap_names, List.mem_cons, List.mem_singleton, List.not_mem_nil,
      or_false, not_or] at h
    simp only [epoxy_em_eglGetProcAddress, h, if_false]


/-! ## `epoxy_extension_in_string` -/

/-- C1, at a failing input: `epoxy_extension_in_string("EGL_foo", "GL_foo")`
returns true although `GL_foo` is no space-delimited token of `EGL_foo`: its
only occurrence, at offset 1, is preceded by the letter `E`. The loop checks
the character after a match and never the one before it. -/
theorem epoxy_extension_in_string_accepts_suffix :
    epoxy_extension_in_string 1 (some "EGL_foo".toList) (some "GL_foo".toList) = .returns true
      ∧ ¬ ∃ p, TokenAt "EGL_foo".toList "GL_foo".toList p := by
  refine ⟨by decide, ?_⟩
  rintro ⟨p, h⟩
  have hp : p ≤ 1 := by
    have := h.1.1
    simp at this
    omega
  interval_cases p <;> revert h <;> decide

/-- C2, as stated, fails: the string of 2^31 letters `a` is non-empty, holds no
space and is the one token of itself, but `epoxy_extension_in_string` called
with it as list and as `ext` does not return true: `int len` is -2^31 and the
first round reads `ptr[len]` before the string. -/
theorem epoxy_extension_in_string_misses_long_token :
    long_name ≠ [] ∧ ' ' ∉ long_name ∧ TokenAt long_name long_name 0
      ∧ epoxy_extension_in_string 1 (some long_name) (some long_name) = .undefined
      ∧ ∀ fuel, epoxy_extension_in_string fuel (some long_name) (some long_name)
          ≠ .returns true := by
  have h1 : 2147483648 ≤ long_name.length := by
    rw [long_name_length]
  have h2 : long_name.length < 4294967296 := by
    rw [long_name_length]
    omega
  refine ⟨replicate_ne_nil 2147483648 'a' (by omega), ?_, tokenAt_self long_name,
    in_string_wraps long_name long_name 0 (List.prefix_refl _) h1 h2,
    fun fuel => in_string_wraps_ne long_name long_name true fuel (List.prefix_refl _) h1 h2⟩
  unfold long_name
  rw [List.mem_replicate]
  rintro ⟨_, h⟩
  exact absurd h (by decide)

/-- C2, amended: a non-empty `ext` without a space and shorter than 2^31 bytes
that is a space-delimited token of `list` is found:
`epoxy_extension_in_string(list, ext)` returns true, within `strlen(list) + 1`
rounds of the loop. -/
theorem epoxy_extension_in_string_finds_token (list ext : CStr) (p fuel : Nat)
    (hlen : ext.length < 2147483648)
    (hext : ext ≠ []) (hsp : ' ' ∉ ext) (htok : TokenAt list ext p)
    (hfuel : list.length < fuel) :
    epoxy_extension_in_string fuel (some list) (some ext) = .returns true :=
  in_string_of_token hlen hext hsp htok hfuel

/-- C2 amended, at the spec's example: `GL_foo` is the token at offset 0 of
`GL_foo GL_bar`, and the call returns true. -/
theorem epoxy_extension_in_string_finds_token_witness :
    TokenAt "GL_foo GL_bar".toList "GL_foo".toList 0
      ∧ epoxy_extension_in_string 14 (some "GL_foo GL_bar".toList) (some "GL_foo".toList)
          = .returns true :=
  ⟨by decide,
   epoxy_extension_in_string_finds_token "GL_foo GL_bar".toList "GL_foo".toList 0 14
     (by decide) (by decide) (by decide) (by decide) (by decide)⟩

/-- C3, as stated, fails: in the list of 2^31 letters `a` and a `b`, every
occurrence of the non-empty `ext` of 2^31 letters `a` is followed by `b`, but
`epoxy_extension_in_string` does not return false: `int len` is -2^31 and the
first round reads `ptr[len]` before the string. -/
theorem epoxy_extension_in_string_long_proper_prefix :
    long_name ≠ []
      ∧ (∀ p, OccursAt (long_name ++ ['b']) long_name p →
          ∃ c, (long_name ++ ['b'])[p + long_name.length]? = some c ∧ c ≠ ' ')
      ∧ epoxy_extension_in_string 1 (some (long_name ++ ['b'])) (some long_name) = .undefined
      ∧ ∀ fuel, epoxy_extension_in_string fuel (some (long_name ++ ['b'])) (some long_name)
          ≠ .returns false := by
  have h1 : 2147483648 ≤ long_name.length := by
    rw [long_name_length]
  have h2 : long_name.length < 4294967296 := by
    rw [long_name_length]
    omega
  exact ⟨replicate_ne_nil 2147483648 'a' (by omega),
    fun p hp => ⟨'b', followed_by_b 2147483648 p (by omega) hp, by decide⟩,
    in_string_wraps _ long_name 0 (List.prefix_append _ _) h1 h2,
    fun fuel => in_string_wraps_ne _ long_name false fuel (List.prefix_append _ _) h1 h2⟩

/-- C3, amended: when every occurrence of a non-empty `ext` shorter than 2^31
bytes in `list` is immediately followed by a character other than a space (so
by neither a space nor the end of the string),
`epoxy_extension_in_string(list, ext)` returns false. -/
theorem epoxy_extension_in_string_rejects_proper_prefixes (list ext : CStr) (fuel : Nat)
    (hlen : ext.length < 2147483648)
    (hext : ext ≠ [])
    (hocc : ∀ p, OccursAt list ext p → ∃ c, list[p + ext.length]? = some c ∧ c ≠ ' ')
    (hfuel : list.length < fuel) :
    epoxy_extension_in_string fuel (some list) (some ext) = .returns false := by
  simp only [epoxy_extension_in_string]
  split
  · rfl
  · refine extension_search_false hlen hext ?_ hfuel
    intro p hp hfol
    obtain ⟨c, hc, hne⟩ := hocc p hp
    rcases hfol with h | h
    · rw [hc] at h
      exact hne (Option.some.inj h)
    · rw [hc] at h
      exact absurd h (by simp)

/-- C3 amended, at the spec's example: the one occurrence of `GL_foo` in `GL_foobar` is
followed by `b`, and the call returns false. -/
theorem epoxy_extension_in_string_rejects_proper_prefixes_witness :
    epoxy_extension_in_string 10 (some "GL_foobar".toList) (some "GL_foo".toList)
      = .returns false :=
  epoxy_extension_in_string_rejects_proper_prefixes "GL_foobar".toList "GL_foo".toList 10
    (by decide)
    (by decide)
    (by
      intro p hp
      have hle : p ≤ 3 := by
        have := hp.1
        simp at this
        omega
      interval_cases p
      · exact ⟨'b', by decide, by decide⟩
      all_goals exact absurd hp (by decide))
    (by decide)

/-- C4: `epoxy_extension_in_string` returns false when `ext` is null, whatever
the list, and when the list is null or the empty string, whatever `ext`; it
does so before the loop, with no round of the search (any fuel, 0 included). -/
theorem epoxy_extension_in_string_null_or_empty (fuel : Nat) (list ext : Option CStr) :
    epoxy_extension_in_string fuel list none = .returns false
      ∧ epoxy_extension_in_string fuel none ext = .returns false
      ∧ epoxy_extension_in_string fuel (some []) ext = .returns false := by
  refine ⟨rfl, ?_, ?_⟩ <;> cases ext <;> rfl

/-! ## `epoxy_has_gl_extension` -/

/-- C5: on a context whose `glGetString(GL_EXTENSIONS)` is the non-null string
`s`, `epoxy_has_gl_extension(ext)` is `epoxy_extension_in_string(s, ext)`, for
every `ext`. -/
theorem epoxy_has_gl_extension_eq_in_string (fuel : Nat) (ctx : GLContext) (s : CStr)
    (ext : Option CStr) (hs : ctx.glGetString_EXTENSIONS = some s) :
    epoxy_has_gl_extension fuel ctx ext = epoxy_extension_in_string fuel (some s) ext := by
  simp [epoxy_has_gl_extension, epoxy_internal_has_gl_extension, epoxy_gl_version,
    has_gl_extension_from_string, hs]

/-- C5 at the spec's example: with the extension string `GL_a GL_b` the check
returns true for `GL_a` and false for `GL_c`. -/
theorem epoxy_has_gl_extension_eq_in_string_witness :
    epoxy_has_gl_extension 10 ⟨some "GL_a GL_b".toList, 0, fun _ => none⟩ (some "GL_a".toList)
        = .returns true
      ∧ epoxy_has_gl_extension 10 ⟨some "GL_a GL_b".toList, 0, fun _ => none⟩
          (some "GL_c".toList) = .returns false :=
  ⟨(epoxy_has_gl_extension_eq_in_string 10 ⟨some "GL_a GL_b".toList, 0, fun _ => none⟩
      "GL_a GL_b".toList (some "GL_a".toList) rfl).trans (by decide),
   (epoxy_has_gl_extension_eq_in_string 10 ⟨some "GL_a GL_b".toList, 0, fun _ => none⟩
      "GL_a GL_b".toList (some "GL_c".toList) rfl).trans (by decide)⟩

/-- C6: when `glGetString(GL_EXTENSIONS)` is null,
`epoxy_internal_has_gl_extension(ext, d)` returns `d` for every `ext` and both
values of `d`, and `epoxy_has_gl_extension(ext)` returns false; no round of
the string search runs (any fuel, 0 included). -/
theorem epoxy_internal_has_gl_extension_null_string (fuel : Nat) (ctx : GLContext)
    (ext : Option CStr) (d : Bool) (hs : ctx.glGetString_EXTENSIONS = none) :
    epoxy_internal_has_gl_extension fuel ctx ext d = .returns d
      ∧ epoxy_has_gl_extension fuel ctx ext = .returns false := by
  simp [epoxy_has_gl_extension, epoxy_internal_has_gl_extension, epoxy_gl_version,
    has_gl_extension_from_string, hs]

/-- C6 on a context without extension string, asked for `GL_a` with the
default true and with no fuel at all. -/
theorem epoxy_internal_has_gl_extension_null_string_witness :
    epoxy_internal_has_gl_extension 0 ⟨none, 2, fun _ => none⟩ (some "GL_a".toList) true
        = .returns true
      ∧ epoxy_has_gl_extension 0 ⟨none, 2, fun _ => none⟩ (some "GL_a".toList)
          = .returns false :=
  epoxy_internal_has_gl_extension_null_string 0 ⟨none, 2, fun _ => none⟩
    (some "GL_a".toList) true rfl
/-- C7, as stated, fails: a context that reports `GL_a` and `GL_b` through the
count and the indexed strings, and whose `glGetString(GL_EXTENSIONS)` is null,
gets false from `epoxy_has_gl_extension("GL_a")`, while the context whose
extension string is `GL_a GL_b` gets true. The count and the indexed strings
are never read. -/
theorem epoxy_has_gl_extension_ignores_indexed_strings :
    ReportsIndexed ⟨none, 2, fun i => ["GL_a".toList, "GL_b".toList][i]?⟩
        ["GL_a".toList, "GL_b".toList]
      ∧ ReportsString ⟨some "GL_a GL_b".toList, 0, fun _ => none⟩
          ["GL_a".toList, "GL_b".toList]
      ∧ epoxy_has_gl_extension 10 ⟨none, 2, fun i => ["GL_a".toList, "GL_b".toList][i]?⟩
          (some "GL_a".toList) = .returns false
      ∧ epoxy_has_gl_extension 10 ⟨some "GL_a GL_b".toList, 0, fun _ => none⟩
          (some "GL_a".toList) = .returns true :=
  ⟨⟨rfl, fun _ _ => rfl⟩, rfl, by decide, by decide⟩

/-- C7, amended: for a non-empty list of fewer than 2^31 non-empty, space-free
names and a non-empty, space-free `ext` shorter than 2^31 bytes that is a
proper suffix of none of them, the indexed branch of `epoxy_internal_has_gl_extension` (lines 272-287) on a
context reporting exactly those names by count and index, and the
single-string branch (lines 267-270) on a context whose extension string is
the names joined by single spaces, return the same result: true exactly when
`ext` is one of the names. `epoxy_has_gl_extension` itself runs the
single-string branch on both contexts, `epoxy_gl_version()` being 20. -/
theorem has_gl_extension_branches_agree (names : List CStr) (ext : CStr)
    (ctxI ctxS : GLContext) (d : Bool) (fuel : Nat)
    (hne : names ≠ []) (hcount : names.length < 2147483648)
    (hnames : ∀ n ∈ names, n ≠ [] ∧ ' ' ∉ n)
    (hext : ext ≠ []) (hsp : ' ' ∉ ext) (hlen : ext.length < 2147483648)
    (hsuf : ∀ n ∈ names, ext <:+ n → ext = n)
    (hI : ReportsIndexed ctxI names) (hS : ReportsString ctxS names)
    (hfuel : (joinWithSpaces names).length < fuel) :
    has_gl_extension_from_index ctxI (some ext) d
        = has_gl_extension_from_string fuel ctxS (some ext) d
      ∧ has_gl_extension_from_string fuel ctxS (some ext) d = .returns (decide (ext ∈ names))
      ∧ epoxy_has_gl_extension fuel ctxS (some ext)
          = has_gl_extension_from_string fuel ctxS (some ext) false
      ∧ epoxy_has_gl_extension fuel ctxI (some ext)
          = has_gl_extension_from_string fuel ctxI (some ext) false := by
  have hstr : has_gl_extension_from_string fuel ctxS (some ext) d
      = .returns (decide (ext ∈ names)) := by
    unfold ReportsString at hS
    simp only [has_gl_extension_from_string, hS]
    exact in_string_joinWithSpaces names ext fuel (fun n hn => (hnames n hn).2) hext hsp hlen
      hsuf hfuel
  have hidx : has_gl_extension_from_index ctxI (some ext) d
      = .returns (decide (ext ∈ names)) := by
    obtain ⟨hnum, hget⟩ := hI
    have hpos : 0 < names.length := List.length_pos.mpr hne
    have hnum0 : ctxI.glGetIntegerv_NUM_EXTENSIONS ≠ 0 := by
      rw [hnum]
      omega
    simp only [has_gl_extension_from_index, hnum0, if_false]
    rw [hnum, Int.toNat_ofNat,
      indexed_extension_loop_mem ctxI names ext hget names.length 0 (Nat.zero_add _),
      List.drop_zero]
  refine ⟨hidx.trans hstr.symm, hstr, ?_, ?_⟩ <;>
    simp [epoxy_has_gl_extension, epoxy_internal_has_gl_extension, epoxy_gl_version]

/-- C7 amended, at the spec's example: names `GL_a`, `GL_b`, asked for `GL_a`;
both branches return true. -/
theorem has_gl_extension_branches_agree_witness :
    has_gl_extension_from_index ⟨none, 2, fun i => ["GL_a".toList, "GL_b".toList][i]?⟩
        (some "GL_a".toList) false
      = has_gl_extension_from_string 10 ⟨some "GL_a GL_b".toList, 0, fun _ => none⟩
          (some "GL_a".toList) false
    ∧ has_gl_extension_from_string 10 ⟨some "GL_a GL_b".toList, 0, fun _ => none⟩
          (some "GL_a".toList) false = .returns true :=
  have h := has_gl_extension_branches_agree ["GL_a".toList, "GL_b".toList] "GL_a".toList
    ⟨none, 2, fun i => ["GL_a".toList, "GL_b".toList][i]?⟩
    ⟨some "GL_a GL_b".toList, 0, fun _ => none⟩ false 10
    (by decide) (by decide) (by decide) (by decide) (by decide) (by decide) (by decide)
    ⟨rfl, fun _ _ => rfl⟩ rfl (by decide)
  ⟨h.1, h.2.1⟩

/-- Where `ext` is a proper suffix of a name, holds a space or is empty, the
two branches differ on the names `GL_a`, `GL_b`: for the proper suffix `L_a` and
for `GL_a GL_b`, which holds a space, the indexed branch returns false and the
single-string branch true; for the empty `ext` the indexed branch returns
false and the single-string branch does not return. -/
theorem has_gl_extension_branches_differ :
    has_gl_extension_from_index ⟨none, 2, fun i => ["GL_a".toList, "GL_b".toList][i]?⟩
        (some "L_a".toList) false = .returns false
      ∧ has_gl_extension_from_string 10 ⟨some "GL_a GL_b".toList, 0, fun _ => none⟩
          (some "L_a".toList) false = .returns true
      ∧ has_gl_extension_from_index ⟨none, 2, fun i => ["GL_a".toList, "GL_b".toList][i]?⟩
          (some "GL_a GL_b".toList) false = .returns false
      ∧ has_gl_extension_from_string 10 ⟨some "GL_a GL_b".toList, 0, fun _ => none⟩
          (some "GL_a GL_b".toList) false = .returns true
      ∧ has_gl_extension_from_index ⟨none, 2, fun i => ["GL_a".toList, "GL_b".toList][i]?⟩
          (some []) false = .returns false
      ∧ ∀ fuel, has_gl_extension_from_string fuel ⟨some "GL_a GL_b".toList, 0, fun _ => none⟩
          (some []) false = .outOfFuel := by
  refine ⟨by decide, by decide, by decide, by decide, by decide, fun fuel => ?_⟩
  exact extension_search_empty_ext_loops "GL_a GL_b".toList 0 'G' (by decide) (by decide) fuel

/-- C8, as stated, fails: on a context whose count query reports 0 and whose
extension string is `GL_a`, `epoxy_internal_has_gl_extension("GL_b", true)`
returns false and `epoxy_internal_has_gl_extension("GL_a", false)` returns
true, neither being the default. -/
theorem epoxy_internal_has_gl_extension_ignores_zero_count :
    (⟨some "GL_a".toList, 0, fun _ => none⟩ : GLContext).glGetIntegerv_NUM_EXTENSIONS = 0
      ∧ epoxy_internal_has_gl_extension 10 ⟨some "GL_a".toList, 0, fun _ => none⟩
          (some "GL_b".toList) true = .returns false
      ∧ epoxy_internal_has_gl_extension 10 ⟨some "GL_a".toList, 0, fun _ => none⟩
          (some "GL_a".toList) false = .returns true :=
  ⟨rfl, by decide, by decide⟩

/-- C8, amended: when the count query reports 0 extensions, the indexed
branch of `epoxy_internal_has_gl_extension` (lines 272-287) returns the
default `d`, for every `ext` and `d`; `epoxy_internal_has_gl_extension` does
not run that branch, `epoxy_gl_version()` being 20, and returns what the
single-string branch returns, whatever the count is. -/
theorem has_gl_extension_from_index_zero_count (fuel : Nat) (ctx : GLContext)
    (ext : Option CStr) (d : Bool) :
    (ctx.glGetIntegerv_NUM_EXTENSIONS = 0 → has_gl_extension_from_index ctx ext d = .returns d)
      ∧ epoxy_internal_has_gl_extension fuel ctx ext d
          = has_gl_extension_from_string fuel ctx ext d := by
  refine ⟨fun h0 => ?_, ?_⟩
  · simp [has_gl_extension_from_index, h0]
  · simp [epoxy_internal_has_gl_extension, epoxy_gl_version]

/-- C8 amended, on a context with count 0 and extension string `GL_a`, asked
for `GL_b` with the default true. -/
theorem has_gl_extension_from_index_zero_count_witness :
    has_gl_extension_from_index ⟨some "GL_a".toList, 0, fun _ => none⟩ (some "GL_b".toList) true
        = .returns true
      ∧ epoxy_internal_has_gl_extension 10 ⟨some "GL_a".toList, 0, fun _ => none⟩
          (some "GL_b".toList) true
        = has_gl_extension_from_string 10 ⟨some "GL_a".toList, 0, fun _ => none⟩
          (some "GL_b".toList) true :=
  ⟨(has_gl_extension_from_index_zero_count 10 ⟨some "GL_a".toList, 0, fun _ => none⟩
      (some "GL_b".toList) true).1 rfl,
   (has_gl_extension_from_index_zero_count 10 ⟨some "GL_a".toList, 0, fun _ => none⟩
      (some "GL_b".toList) true).2⟩

/-! ## `epoxy_em_bootstrap` and `epoxy_em_eglGetProcAddress` -/

/-- C9, at a failing input: for the name `glGetError`, which is neither
`glGetString` nor `glGetIntegerv`, `epoxy_em_bootstrap` returns the address of
`glGetIntegerv` and does not abort, while `epoxy_em_eglGetProcAddress` aborts
on the same unknown name. -/
theorem epoxy_em_bootstrap_unknown_name_returns :
    epoxy_em_bootstrap (some "glGetError".toList) = .returns (addressOf "glGetIntegerv")
      ∧ epoxy_em_bootstrap (some "glGetError".toList) ≠ .aborts
      ∧ epoxy_em_eglGetProcAddress (some "glGetError".toList) = .aborts := by
  decide

/-- C10: `epoxy_em_eglGetProcAddress(name)` returns the address of the function
called `name` when `name` is one of the 26 EGL bootstrap names, and aborts for
every other name; it returns an address exactly for the names of that set. -/
theorem epoxy_em_eglGetProcAddress_fixed_set (name : CStr) :
    egl_bootstrap_names.length = 26
      ∧ (name ∈ egl_bootstrap_names →
          epoxy_em_eglGetProcAddress (some name) = .returns ⟨name⟩)
      ∧ (name ∉ egl_bootstrap_names → epoxy_em_eglGetProcAddress (some name) = .aborts)
      ∧ ((∃ a, epoxy_em_eglGetProcAddress (some name) = .returns a)
          ↔ name ∈ egl_bootstrap_names) := by
  rw [epoxy_em_eglGetProcAddress_eq]
  refine ⟨rfl, fun h => if_pos h, fun h => if_neg h, ?_⟩
  by_cases h : name ∈ egl_bootstrap_names
  · simp [h]
  · simp [h]

/-! ## The trampolines -/

theorem rewrite_slot_resolved {Arg Ret : Type} (E : EntryPoint Arg Ret) (st : DispatchState)
    (h : st.slot ≠ E.rewrite_ptr) : rewrite_slot E st = .returns st := by
  simp [rewrite_slot, h]

theorem rewrite_slot_unresolved {Arg Ret : Type} (E : EntryPoint Arg Ret) (st : DispatchState)
    (p : FnAddr) (h : st.slot = E.rewrite_ptr)
    (hres : E.resolver st.resolver_calls = .returns p) :
    rewrite_slot E st = .returns ⟨p, st.resolver_calls + 1⟩ := by
  simp [rewrite_slot, h, hres]

theorem global_rewrite_ptr_ret_resolved {Arg Ret : Type} (E : EntryPoint Arg Ret)
    (st : DispatchState) (a : Arg) (fuel : Nat) (h : st.slot ≠ E.rewrite_ptr) :
    global_rewrite_ptr_ret E (fuel + 1) st a = .returns (E.target st.slot a, st) := by
  rw [global_rewrite_ptr_ret, rewrite_slot_resolved E st h]
  simp [h]

theorem call_through_slot_resolved {Arg Ret : Type} (E : EntryPoint Arg Ret)
    (st : DispatchState) (a : Arg) (fuel : Nat) (h : st.slot ≠ E.rewrite_ptr) :
    call_through_slot E fuel st a = .returns (E.target st.slot a, st) := by
  simp [call_through_slot, h]

theorem global_rewrite_ptr_ret_unresolved {Arg Ret : Type} (E : EntryPoint Arg Ret)
    (st : DispatchState) (a : Arg) (p : FnAddr) (fuel : Nat) (h : st.slot = E.rewrite_ptr)
    (hres : E.resolver st.resolver_calls = .returns p) :
    global_rewrite_ptr_ret E (fuel + 1) st a
      = call_through_slot E fuel ⟨p, st.resolver_calls + 1⟩ a := by
  rw [global_rewrite_ptr_ret, rewrite_slot_unresolved E st p h hres]
  simp only [call_through_slot]

/-- A call that returns from a resolved state leaves the state as it is. -/
theorem callStep_resolved {Arg Ret : Type} (E : EntryPoint Arg Ret) (st st' : DispatchState)
    (h : st.slot ≠ E.rewrite_ptr) (hstep : CallStep E st st') : st' = st := by
  cases hstep with
  | through_slot fuel a r _ _ hcall =>
    rw [call_through_slot_resolved E st a fuel h] at hcall
    exact ((Prod.mk.inj (Outcome.returns.inj hcall)).2).symm
  | through_trampoline fuel a r _ _ hcall =>
    cases fuel with
    | zero => simp [global_rewrite_ptr_ret] at hcall
    | succ n =>
      rw [global_rewrite_ptr_ret_resolved E st a n h] at hcall
      exact ((Prod.mk.inj (Outcome.returns.inj hcall)).2).symm

/-- The offsets the search loop touches, started inside the string, stay
inside the string, terminator included, when `len` holds the length of `ext`
exactly. -/
theorem extension_search_accesses_le (list ext : CStr) (fuel off : Nat)
    (hlen : ext.length < 2147483648) (hoff : off ≤ list.length) (i : Int)
    (hi : i ∈ extension_search_accesses list ext fuel off) :
    0 ≤ i ∧ i ≤ (list.length : Int) := by
  induction fuel generalizing off with
  | zero => simp [extension_search_accesses] at hi
  | succ n ih =>
    rw [extension_search_accesses] at hi
    split at hi
    · simp only [List.mem_singleton] at hi
      omega
    · rename_i k hk
      have hb := strstr_bound hk
      simp only [List.length_drop] at hb
      have e : (off : Int) + (k : Int) + strlen_as_int ext
          = ((off + k + ext.length : Nat) : Int) := by
        rw [strlen_as_int_of_lt hlen]
        push_cast
        rfl
      simp only [e, Int.toNat_ofNat] at hi
      split at hi
      · simp only [List.mem_cons, List.mem_singleton, List.not_mem_nil, or_false] at hi
        omega
      · split at hi
        · simp only [List.mem_cons, List.mem_singleton, List.not_mem_nil, or_false] at hi
          omega
        · simp only [List.mem_cons] at hi
          rcases hi with h | h | h
          · omega
          · omega
          · exact ih (off + k + ext.length) (by omega) h

/-! ## Claims on the bootstrap table, the trampolines and the versions -/

/-- C11: `epoxy_em_bootstrap` maps `glGetString` to the address of
`glGetString` and `glGetIntegerv` to the address of `glGetIntegerv`, and for
every name the result is the address of `glGetString` exactly when the name is
`glGetString`. -/
theorem epoxy_em_bootstrap_maps_names (name : CStr) :
    epoxy_em_bootstrap (some "glGetString".toList) = .returns (addressOf "glGetString")
      ∧ epoxy_em_bootstrap (some "glGetIntegerv".toList) = .returns (addressOf "glGetIntegerv")
      ∧ (epoxy_em_bootstrap (some name) = .returns (addressOf "glGetString")
          ↔ name = "glGetString".toList) := by
  refine ⟨by decide, by decide, ?_⟩
  simp only [epoxy_em_bootstrap]
  by_cases h : "glGetString".toList = name
  · rw [if_pos h]
    exact ⟨fun _ => h.symm, fun _ => rfl⟩
  · rw [if_neg h]
    constructor
    · intro hc
      exact absurd hc (by decide)
    · intro hn
      exact absurd hn.symm h

/-- C12: when the slot holds the trampoline and the resolver returns the
address `p` of a real function, the first call through the slot calls the
resolver once (the call count goes up by one) and leaves `p` in the slot, and
a second call through the slot does not call the resolver (state unchanged). -/
theorem first_call_resolves_once {Arg Ret : Type} (E : EntryPoint Arg Ret)
    (st : DispatchState) (a b : Arg) (p : FnAddr) (fuel : Nat)
    (hslot : st.slot = E.rewrite_ptr)
    (hres : E.resolver st.resolver_calls = .returns p)
    (hp : p ≠ E.rewrite_ptr) :
    call_through_slot E (fuel + 1) st a
        = .returns (E.target p a, ⟨p, st.resolver_calls + 1⟩)
      ∧ call_through_slot E fuel ⟨p, st.resolver_calls + 1⟩ b
        = .returns (E.target p b, ⟨p, st.resolver_calls + 1⟩) := by
  constructor
  · rw [call_through_slot, if_pos hslot, global_rewrite_ptr_ret_unresolved E st a p fuel hslot hres]
    exact call_through_slot_resolved E ⟨p, st.resolver_calls + 1⟩ a fuel hp
  · exact call_through_slot_resolved E ⟨p, st.resolver_calls + 1⟩ b fuel hp

/-- C12 on `glFoo`, unresolved and with no resolver call made: the first call
with 5 returns 6 with one resolver call made, the second call with 7 returns 8
with still one resolver call made. -/
theorem first_call_resolves_once_witness :
    call_through_slot glFoo 1 ⟨addressOf "glFoo_global_rewrite_ptr", 0⟩ 5
        = .returns (6, ⟨addressOf "glFoo_resolved", 1⟩)
      ∧ call_through_slot glFoo 0 ⟨addressOf "glFoo_resolved", 1⟩ 7
        = .returns (8, ⟨addressOf "glFoo_resolved", 1⟩) :=
  first_call_resolves_once glFoo ⟨addressOf "glFoo_global_rewrite_ptr", 0⟩ 5 7
    (addressOf "glFoo_resolved") 0 rfl rfl (by decide)

/-- C13: from a state whose slot holds an address other than the trampoline,
any sequence of returning calls, through the slot or to the trampoline, ends
in a state whose slot holds the same address, so never the trampoline and
never another function; and every such call does return, with the result of
the function at that address. -/
theorem slot_stays_resolved {Arg Ret : Type} (E : EntryPoint Arg Ret)
    (st st' : DispatchState) (h : st.slot ≠ E.rewrite_ptr)
    (hcalls : Relation.ReflTransGen (CallStep E) st st') :
    st'.slot = st.slot ∧ st'.slot ≠ E.rewrite_ptr
      ∧ ∀ (fuel : Nat) (a : Arg),
          call_through_slot E fuel st' a = .returns (E.target st.slot a, st')
            ∧ global_rewrite_ptr_ret E (fuel + 1) st' a = .returns (E.target st.slot a, st') := by
  have heq : st' = st := by
    induction hcalls with
    | refl => rfl
    | tail _ hstep ih =>
      rw [← ih]
      exact callStep_resolved E _ _ (ih ▸ h) hstep
  subst heq
  exact ⟨rfl, h, fun fuel a =>
    ⟨call_through_slot_resolved E st' a fuel h, global_rewrite_ptr_ret_resolved E st' a fuel h⟩⟩

/-- C13 on `glFoo` once resolved: after a call to the trampoline and a call
through the slot, the slot still holds the resolved address. -/
theorem slot_stays_resolved_witness :
    (⟨addressOf "glFoo_resolved", 1⟩ : DispatchState).slot = addressOf "glFoo_resolved"
      ∧ (⟨addressOf "glFoo_resolved", 1⟩ : DispatchState).slot ≠ glFoo.rewrite_ptr :=
  have h := slot_stays_resolved glFoo ⟨addressOf "glFoo_resolved", 1⟩
    ⟨addressOf "glFoo_resolved", 1⟩ (by decide)
    (Relation.ReflTransGen.tail
      (Relation.ReflTransGen.single
        (CallStep.through_trampoline 1 5 6 ⟨addressOf "glFoo_resolved", 1⟩
          ⟨addressOf "glFoo_resolved", 1⟩ rfl))
      (CallStep.through_slot 0 7 8 ⟨addressOf "glFoo_resolved", 1⟩
        ⟨addressOf "glFoo_resolved", 1⟩ rfl))
  ⟨h.1, h.2.1⟩

/-- C14: a call of the value-returning trampoline with arguments `a` while the
slot holds the trampoline, in which the resolver returns the address `p`, is
forwarded with `a` through the slot that now holds `p`; for a real function
at `p` it returns that function's result on `a`, in the same call. -/
theorem global_rewrite_ptr_ret_forwards {Arg Ret : Type} (E : EntryPoint Arg Ret)
    (st : DispatchState) (a : Arg) (p : FnAddr) (fuel : Nat)
    (hslot : st.slot = E.rewrite_ptr)
    (hres : E.resolver st.resolver_calls = .returns p) :
    global_rewrite_ptr_ret E (fuel + 1) st a
        = call_through_slot E fuel ⟨p, st.resolver_calls + 1⟩ a
      ∧ (p ≠ E.rewrite_ptr →
          global_rewrite_ptr_ret E (fuel + 1) st a
            = .returns (E.target p a, ⟨p, st.resolver_calls + 1⟩)) := by
  have hfwd := global_rewrite_ptr_ret_unresolved E st a p fuel hslot hres
  refine ⟨hfwd, fun hp => ?_⟩
  rw [hfwd]
  exact call_through_slot_resolved E ⟨p, st.resolver_calls + 1⟩ a fuel hp

/-- C14 on `glFoo`, unresolved: the trampoline called with 5 returns 6, the
result of the function the resolver returned in that call. -/
theorem global_rewrite_ptr_ret_forwards_witness :
    global_rewrite_ptr_ret glFoo 1 ⟨addressOf "glFoo_global_rewrite_ptr", 0⟩ 5
      = .returns (6, ⟨addressOf "glFoo_resolved", 1⟩) :=
  (global_rewrite_ptr_ret_forwards glFoo ⟨addressOf "glFoo_global_rewrite_ptr", 0⟩ 5
    (addressOf "glFoo_resolved") 0 rfl rfl).2 (by decide)

/-- C15: `epoxy_gl_version()` takes no argument and reads no state: it is the
constant 20, which is `major * 10 + minor` for major 2 and minor 0, and
decoding it gives back major 2 and a minor from 0 to 9. -/
theorem epoxy_gl_version_encoding :
    epoxy_gl_version = 20 ∧ epoxy_gl_version = 2 * 10 + 0
      ∧ epoxy_gl_version / 10 = 2 ∧ epoxy_gl_version % 10 = 0
      ∧ 0 ≤ epoxy_gl_version % 10 ∧ epoxy_gl_version % 10 < 10 := by
  decide

/-- C17, at the call: `epoxy_glsl_version()` returns 20, which decodes under
`major * 100 + minor` to major 0 and minor 20; the major version is not at
least 1. -/
theorem epoxy_glsl_version_major_zero :
    epoxy_glsl_version = 20 ∧ epoxy_glsl_version / 100 = 0
      ∧ epoxy_glsl_version % 100 = 20 ∧ ¬ 1 ≤ epoxy_glsl_version / 100 := by
  decide

/-- C18, at a failing input: `epoxy_extension_in_string("abc", "")` does not
return. `strstr` finds the empty string at the search position, the character
there is `a`, and the position advances by 0: the loop is still running after
any number of rounds. -/
theorem epoxy_extension_in_string_empty_ext_loops :
    epoxy_extension_in_string 1000 (some "abc".toList) (some []) = .outOfFuel
      ∧ ∀ fuel, epoxy_extension_in_string fuel (some "abc".toList) (some []) = .outOfFuel := by
  have h : ∀ fuel, epoxy_extension_in_string fuel (some "abc".toList) (some []) = .outOfFuel := by
    intro fuel
    exact extension_search_empty_ext_loops "abc".toList 0 'a' (by decide) (by decide) fuel
  exact ⟨h 1000, h⟩

/-- C19, as stated, fails: called with the string of 2^31 letters `a` as list
and as `ext`, the loop matches at offset 0 and then reads `ptr[len]` at offset
-2^31, before the string: `int len` does not hold the length 2^31. -/
theorem extension_search_accesses_before_string :
    extension_search_accesses long_name long_name 1 0 = [0, -2147483648]
      ∧ (-2147483648 : Int) < 0 := by
  have h1 : 2147483648 ≤ long_name.length := by
    rw [long_name_length]
  have h2 : long_name.length < 4294967296 := by
    rw [long_name_length]
    omega
  refine ⟨?_, by omega⟩
  rw [extension_search_accesses_wraps long_name long_name 0 (List.prefix_refl _) h1 h2,
    long_name_length]
  rfl

/-- C19, amended: for every list and every `ext` shorter than 2^31 bytes, the
empty one included, every offset the loop of `epoxy_extension_in_string`
searches from, reads at after a match (`ptr[len]`) or advances to
(`ptr += len`) is at least 0 and at most the length of the list, so inside the
string or on its terminator. -/
theorem extension_search_accesses_in_bounds (list ext : CStr) (fuel : Nat) (i : Int)
    (hlen : ext.length < 2147483648)
    (hi : i ∈ extension_search_accesses list ext fuel 0) :
    0 ≤ i ∧ i ≤ (list.length : Int) :=
  extension_search_accesses_le list ext fuel 0 hlen (Nat.zero_le _) i hi

/-- C19 amended, on the list `GL_foox GL_foo` and `GL_foo`: the loop searches
from 0, reads index 6 and goes on from there, then reads index 14, the
terminator. -/
theorem extension_search_accesses_in_bounds_witness :
    extension_search_accesses "GL_foox GL_foo".toList "GL_foo".toList 5 0 = [0, 6, 6, 14]
      ∧ (0 : Int) ≤ 14 ∧ (14 : Int) ≤ ("GL_foox GL_foo".toList.length : Int) :=
  ⟨by decide,
   extension_search_accesses_in_bounds "GL_foox GL_foo".toList "GL_foo".toList 5 14
     (by decide) (by decide)⟩

/-- C20: `epoxy_internal_has_gl_extension(ext, d)` is the same on two contexts
with the same `glGetString(GL_EXTENSIONS)`, whatever their extension counts
and indexed extension strings are. -/
theorem epoxy_internal_has_gl_extension_depends_on_string (fuel : Nat)
    (ctx ctx' : GLContext) (ext : Option CStr) (d : Bool)
    (h : ctx.glGetString_EXTENSIONS = ctx'.glGetString_EXTENSIONS) :
    epoxy_internal_has_gl_extension fuel ctx ext d
      = epoxy_internal_has_gl_extension fuel ctx' ext d := by
  simp [epoxy_internal_has_gl_extension, epoxy_gl_version, has_gl_extension_from_string, h]

/-- C20 on two contexts with the extension string `GL_a`, one reporting no
indexed extension and one reporting `GL_b` by index: both answer true for
`GL_a`. -/
theorem epoxy_internal_has_gl_extension_depends_on_string_witness :
    epoxy_internal_has_gl_extension 5 ⟨some "GL_a".toList, 0, fun _ => none⟩
        (some "GL_a".toList) false
      = epoxy_internal_has_gl_extension 5
        ⟨some "GL_a".toList, 1, fun _ => some "GL_b".toList⟩ (some "GL_a".toList) false :=
  epoxy_internal_has_gl_extension_depends_on_string 5 ⟨some "GL_a".toList, 0, fun _ => none⟩
    ⟨some "GL_a".toList, 1, fun _ => some "GL_b".toList⟩ (some "GL_a".toList) false rfl

/-! ## Several threads in the trampoline -/

theorem resolverReturned_mono {Arg Ret : Type} (E : EntryPoint Arg Ret) {c c' : Nat}
    {p : FnAddr} (h : ResolverReturned E c p) (hc : c ≤ c') : ResolverReturned E c' p := by
  obtain ⟨k, hk, hres⟩ := h
  exact ⟨k, by omega, hres⟩

theorem resolverReturned_ne {Arg Ret : Type} (E : EntryPoint Arg Ret)
    (hres : ∀ k, ∃ p, E.resolver k = .returns p ∧ p ≠ E.rewrite_ptr) {c : Nat} {p : FnAddr}
    (h : ResolverReturned E c p) : p ≠ E.rewrite_ptr := by
  obtain ⟨k, _, hk⟩ := h
  obtain ⟨q, hq, hne⟩ := hres k
  rw [hq] at hk
  exact Outcome.returns.inj hk ▸ hne

theorem threadOk_transfer {Arg Ret : Type} (E : EntryPoint Arg Ret) {slot slot' : FnAddr}
    {c c' : Nat} {pc : ThreadPc} (h : ThreadOk E slot c pc) (hc : c ≤ c')
    (hslot : slot ≠ E.rewrite_ptr → slot' ≠ E.rewrite_ptr) : ThreadOk E slot' c' pc :=
  ⟨h.1, fun hpc => hslot (h.2.1 hpc), fun p hp => resolverReturned_mono E (h.2.2 p hp) hc⟩

/-- One step of a thread that is in order leaves the slot the trampoline or a
resolver result, the thread in order, and a resolved slot resolved. -/
theorem thread_step_ok {Arg Ret : Type} (E : EntryPoint Arg Ret)
    (hres : ∀ k, ∃ p, E.resolver k = .returns p ∧ p ≠ E.rewrite_ptr)
    (slot : FnAddr) (c : Nat) (pc : ThreadPc)
    (hslot : slot = E.rewrite_ptr ∨ ResolverReturned E c slot)
    (hpc : ThreadOk E slot c pc) :
    ((thread_step E slot c pc).1 = E.rewrite_ptr
        ∨ ResolverReturned E (thread_step E slot c pc).2.1 (thread_step E slot c pc).1)
      ∧ ThreadOk E (thread_step E slot c pc).1 (thread_step E slot c pc).2.1
          (thread_step E slot c pc).2.2
      ∧ c ≤ (thread_step E slot c pc).2.1
      ∧ (slot ≠ E.rewrite_ptr → (thread_step E slot c pc).1 ≠ E.rewrite_ptr) := by
  cases pc with
  | call =>
    refine ⟨hslot, ?_, Nat.le_refl _, id⟩
    simp only [thread_step]
    by_cases h : slot = E.rewrite_ptr
    · rw [if_pos h]
      exact ⟨by simp, by simp, by simp⟩
    · rw [if_neg h]
      exact ⟨by simp, fun _ => h, by simp⟩
  | compare =>
    refine ⟨hslot, ?_, Nat.le_refl _, id⟩
    simp only [thread_step]
    by_cases h : slot = E.rewrite_ptr
    · rw [if_pos h]
      exact ⟨by simp, by simp, by simp⟩
    · rw [if_neg h]
      exact ⟨by simp, fun _ => h, by simp⟩
  | resolve =>
    obtain ⟨p, hp, _⟩ := hres c
    simp only [thread_step, hp]
    refine ⟨?_, ⟨by simp, by simp, ?_⟩, Nat.le_succ _, id⟩
    · rcases hslot with h | h
      · exact Or.inl h
      · exact Or.inr (resolverReturned_mono E h (Nat.le_succ _))
    · intro q hq
      cases hq
      exact ⟨c, Nat.lt_succ_self _, hp⟩
  | store p =>
    have hp := hpc.2.2 p rfl
    have hne := resolverReturned_ne E hres hp
    simp only [thread_step]
    exact ⟨Or.inr hp, ⟨by simp, fun _ => hne, by simp⟩, Nat.le_refl _, fun _ => hne⟩
  | forward =>
    have h := hpc.2.1 (Or.inl rfl)
    refine ⟨hslot, ?_, Nat.le_refl _, id⟩
    simp only [thread_step, if_neg h]
    exact ⟨by simp, fun _ => h, by simp⟩
  | finished =>
    exact ⟨hslot, hpc, Nat.le_refl _, id⟩
  | failed =>
    exact absurd rfl hpc.1

theorem raceInv_step {Arg Ret : Type} (E : EntryPoint Arg Ret)
    (hres : ∀ k, ∃ p, E.resolver k = .returns p ∧ p ≠ E.rewrite_ptr)
    (s : RaceState) (t : Nat) (h : RaceInv E s) : RaceInv E (race_step E s t) := by
  unfold race_step
  split
  · exact h
  · split
    · exact h
    · rename_i pc hpc
      have hmem : pc ∈ s.threads := List.mem_iff_getElem?.mpr ⟨t, hpc⟩
      obtain ⟨h1, h2, h3, h4⟩ :=
        thread_step_ok E hres s.slot s.resolver_calls pc h.1 (h.2 pc hmem)
      refine ⟨h1, ?_⟩
      intro pc' hpc'
      rcases List.mem_or_eq_of_mem_set hpc' with hin | heq
      · exact threadOk_transfer E (h.2 pc' hin) h3 h4
      · rw [heq]
        exact h2

theorem raceInv_init {Arg Ret : Type} (E : EntryPoint Arg Ret) (n : Nat) :
    RaceInv E (race_init E n) := by
  refine ⟨Or.inl rfl, ?_⟩
  intro pc hpc
  have : pc = .call := (List.mem_replicate.mp hpc).2
  subst this
  exact ⟨by simp, by simp, by simp⟩

theorem raceInv_run {Arg Ret : Type} (E : EntryPoint Arg Ret)
    (hres : ∀ k, ∃ p, E.resolver k = .returns p ∧ p ≠ E.rewrite_ptr)
    (schedule : List Nat) (s : RaceState) (h : RaceInv E s) :
    RaceInv E (race_run E schedule s) := by
  induction schedule generalizing s with
  | nil => exact h
  | cons t rest ih => exact ih (race_step E s t) (raceInv_step E hres s t h)

theorem race_step_length {Arg Ret : Type} (E : EntryPoint Arg Ret) (s : RaceState) (t : Nat) :
    (race_step E s t).threads.length = s.threads.length := by
  unfold race_step
  split
  · rfl
  · split
    · rfl
    · simp

theorem race_run_length {Arg Ret : Type} (E : EntryPoint Arg Ret) (schedule : List Nat)
    (s : RaceState) : (race_run E schedule s).threads.length = s.threads.length := by
  induction schedule generalizing s with
  | nil => rfl
  | cons t rest ih =>
    show (race_run E rest (race_step E s t)).threads.length = _
    rw [ih, race_step_length]

/-- A step of a thread that is in order uses up one of the steps it has left. -/
theorem thread_step_stepsLeft {Arg Ret : Type} (E : EntryPoint Arg Ret)
    (hres : ∀ k, ∃ p, E.resolver k = .returns p ∧ p ≠ E.rewrite_ptr)
    (slot : FnAddr) (c : Nat) (pc : ThreadPc) (hpc : ThreadOk E slot c pc) :
    stepsLeft (thread_step E slot c pc).2.2 ≤ stepsLeft pc - 1 := by
  cases pc with
  | call =>
    simp only [thread_step]
    split <;> simp [stepsLeft]
  | compare =>
    simp only [thread_step]
    split <;> simp [stepsLeft]
  | resolve =>
    obtain ⟨p, hp, _⟩ := hres c
    simp [thread_step, hp, stepsLeft]
  | store p => simp [thread_step, stepsLeft]
  | forward =>
    have h := hpc.2.1 (Or.inl rfl)
    simp [thread_step, if_neg h, stepsLeft]
  | finished => simp [thread_step, stepsLeft]
  | failed => simp [thread_step, stepsLeft]

theorem threadStepsLeft_step {Arg Ret : Type} (E : EntryPoint Arg Ret)
    (hres : ∀ k, ∃ p, E.resolver k = .returns p ∧ p ≠ E.rewrite_ptr)
    (s : RaceState) (u t : Nat) (h : RaceInv E s) :
    threadStepsLeft (race_step E s u) t
      ≤ threadStepsLeft s t - (if u = t then 1 else 0) := by
  have hfail : ThreadPc.failed ∉ s.threads := fun hm => (h.2 _ hm).1 rfl
  unfold race_step
  rw [if_neg hfail]
  cases hpc : s.threads[u]? with
  | none =>
    by_cases hut : u = t
    · subst hut
      simp [threadStepsLeft, hpc]
    · simp [hut]
  | some pc =>
    have hmem : pc ∈ s.threads := List.mem_iff_getElem?.mpr ⟨u, hpc⟩
    have hu : u < s.threads.length := (List.getElem?_eq_some_iff.mp hpc).1
    by_cases hut : u = t
    · subst hut
      simp only [threadStepsLeft, List.getElem?_set_self hu, hpc, if_true]
      exact thread_step_stepsLeft E hres s.slot s.resolver_calls pc (h.2 pc hmem)
    · simp only [threadStepsLeft, List.getElem?_set_ne hut, if_neg hut, Nat.sub_zero]
      exact Nat.le_refl _

theorem threadStepsLeft_run {Arg Ret : Type} (E : EntryPoint Arg Ret)
    (hres : ∀ k, ∃ p, E.resolver k = .returns p ∧ p ≠ E.rewrite_ptr)
    (schedule : List Nat) (s : RaceState) (t : Nat) (h : RaceInv E s) :
    threadStepsLeft (race_run E schedule s) t ≤ threadStepsLeft s t - schedule.count t := by
  induction schedule generalizing s with
  | nil => simp [race_run]
  | cons u rest ih =>
    have h1 := ih (race_step E s u) (raceInv_step E hres s u h)
    have h2 := threadStepsLeft_step E hres s u t h
    have hrun : race_run E (u :: rest) s = race_run E rest (race_step E s u) := rfl
    rw [hrun, List.count_cons]
    by_cases hut : u = t
    · subst hut
      rw [if_pos rfl] at h2
      simp only [beq_self_eq_true, if_true]
      omega
    · rw [if_neg hut] at h2
      have hb : (u == t) = false := by simpa using hut
      simp only [hb]
      simp only [Bool.false_eq_true, if_false]
      omega

/-- From the start with `n` threads, after a schedule that gives every thread
five steps, every thread has finished. -/
theorem race_run_finished {Arg Ret : Type} (E : EntryPoint Arg Ret)
    (hres : ∀ k, ∃ p, E.resolver k = .returns p ∧ p ≠ E.rewrite_ptr)
    (n : Nat) (schedule : List Nat) (hfair : ∀ t, t < n → 5 ≤ schedule.count t) :
    ∀ pc ∈ (race_run E schedule (race_init E n)).threads, pc = .finished := by
  intro pc hpc
  obtain ⟨t, ht⟩ := List.mem_iff_getElem?.mp hpc
  have hlt : t < (race_run E schedule (race_init E n)).threads.length :=
    (List.getElem?_eq_some_iff.mp ht).1
  rw [race_run_length] at hlt
  have hn : t < n := by
    simpa [race_init] using hlt
  have hinit : threadStepsLeft (race_init E n) t = 5 := by
    simp [threadStepsLeft, race_init, List.getElem?_replicate, hn, stepsLeft]
  have hle := threadStepsLeft_run E hres schedule (race_init E n) t (raceInv_init E n)
  have h5 := hfair t hn
  have hzero : threadStepsLeft (race_run E schedule (race_init E n)) t = 0 := by omega
  have hinv := raceInv_run E hres schedule (race_init E n) (raceInv_init E n)
  have hok := (hinv.2 pc hpc).1
  simp only [threadStepsLeft, ht] at hzero
  cases pc <;> simp [stepsLeft] at hzero hok ⊢

/-- C16: `n` threads invoke the unresolved entry point, whose resolver returns
addresses of real functions. Under every interleaving of their compare,
resolve, store and forward steps the slot holds, as a whole, the trampoline
or an address the resolver returned; and once every thread has had its five
steps, every thread has finished and the slot is resolved: it holds an
address the resolver returned, not the trampoline. -/
theorem race_ends_resolved {Arg Ret : Type} (E : EntryPoint Arg Ret) (n : Nat)
    (schedule : List Nat)
    (hres : ∀ k, ∃ p, E.resolver k = .returns p ∧ p ≠ E.rewrite_ptr)
    (hn : 0 < n) :
    ((race_run E schedule (race_init E n)).slot = E.rewrite_ptr
        ∨ ResolverReturned E (race_run E schedule (race_init E n)).resolver_calls
            (race_run E schedule (race_init E n)).slot)
      ∧ ((∀ t, t < n → 5 ≤ schedule.count t) →
          (race_run E schedule (race_init E n)).threads = List.replicate n .finished
            ∧ (race_run E schedule (race_init E n)).slot ≠ E.rewrite_ptr
            ∧ ResolverReturned E (race_run E schedule (race_init E n)).resolver_calls
                (race_run E schedule (race_init E n)).slot) := by
  have hinv := raceInv_run E hres schedule (race_init E n) (raceInv_init E n)
  refine ⟨hinv.1, fun hfair => ?_⟩
  have hfin := race_run_finished E hres n schedule hfair
  have hlen : (race_run E schedule (race_init E n)).threads.length = n := by
    rw [race_run_length]
    simp [race_init]
  have hthreads : (race_run E schedule (race_init E n)).threads
      = List.replicate n .finished := by
    have hrep := List.eq_replicate_of_mem hfin
    rw [hlen] at hrep
    exact hrep
  have hmem : ThreadPc.finished ∈ (race_run E schedule (race_init E n)).threads := by
    rw [hthreads]
    exact List.mem_replicate.mpr ⟨by omega, rfl⟩
  have hslot := (hinv.2 _ hmem).2.1 (Or.inr rfl)
  exact ⟨hthreads, hslot, hinv.1.resolve_left hslot⟩

/-- C16 on `glFoo` with two threads that take turns: both resolve, both store,
both finish, and the slot holds the address the resolver returned. -/
theorem race_ends_resolved_witness :
    (race_run glFoo [0, 1, 0, 1, 0, 1, 0, 1, 0, 1] (race_init glFoo 2)).threads
        = [.finished, .finished]
      ∧ (race_run glFoo [0, 1, 0, 1, 0, 1, 0, 1, 0, 1] (race_init glFoo 2)).slot
          = addressOf "glFoo_resolved"
      ∧ (race_run glFoo [0, 1, 0, 1, 0, 1, 0, 1, 0, 1] (race_init glFoo 2)).resolver_calls = 2 :=
  have h := (race_ends_resolved glFoo 2 [0, 1, 0, 1, 0, 1, 0, 1, 0, 1]
    (fun _ => ⟨addressOf "glFoo_resolved", rfl, by decide⟩) (by decide)).2
    (by
      intro t ht
      interval_cases t <;> decide)
  ⟨h.1, by decide, by decide⟩

end Epoxy
